import Mathlib

/-!
# lf: history store, selection file and reactor loop (`app.go`)

A shallow embedding of the parts of `app.go` that decide the checked properties:

* `loadFiles` / `saveFiles` (selection file),
* `app.readHistory` / `app.writeHistory` (history file),
* the body of `app.loop`: the invalidation phase and the `select` cases for the quit signal,
  the six progress channels and the directory channel.

Go strings and file contents are byte sequences.  A file is `Option (List UInt8)`: `none` is a
file that does not exist.  Failures of the operating system other than "file does not exist"
(permissions, full disk) are outside the model: `os.Open` of an existing file, `os.MkdirAll`,
`os.Create` and the writes succeed.  `bufio.Scanner` with its default line splitter and its
default token limit is modelled by `scanTokens`.

Code that `app.loop` calls and that is outside the given sources is a parameter of the model:
the widths of the counter types (`Widths`), the methods of `nav`, `ui` and `dir` that the
directory case calls (`Collab`), and the bodies of the resync handlers (`Bodies`).
-/

namespace Lf

/-! ## Byte strings -/

/-- A Go `string`: a sequence of bytes. -/
abbrev GoString := List UInt8

/-- The bytes of an ASCII literal. -/
def ascii (s : String) : GoString := s.toList.map (fun c => c.toNat.toUInt8)

/-- The line feed byte. -/
def LF : UInt8 := 10

/-- The carriage return byte. -/
def CR : UInt8 := 13

/-- The space byte. -/
def SP : UInt8 := 32

/-! ## `bufio.Scanner` -/

/-- The constant `bufio.MaxScanTokenSize`: the size the scanner buffer may grow to. -/
def maxScanTokenSize : Nat := 64 * 1024

/-- The function `dropCR` of package `bufio`: one trailing carriage return is removed. -/
def dropCR (data : GoString) : GoString :=
  if data.getLast? = some CR then data.dropLast else data

/-- The tokens that successive calls of `Scan` deliver on a `bufio.NewScanner` reading the given
bytes (split function `bufio.ScanLines`, buffer limit `maxScanTokenSize`), and whether scanning
stopped with `bufio.ErrTooLong` instead of end of file.

`acc` holds the bytes of the current line that are already buffered.  A line feed ends the line
(`ScanLines` returns `dropCR` of the bytes before it); at end of file a non-empty rest is the
final line (`ScanLines` with `atEOF`); without a line feed among the first `maxScanTokenSize`
bytes of the line the buffer is full and may not grow (`len(s.buf) >= s.maxTokenSize`), and
`Scan` fails with `ErrTooLong`.  So a line of up to 65535 bytes before its line feed is
delivered, and a line of 65536 bytes or more is an error. -/
def scanTokens (acc : GoString) : List UInt8 → List GoString × Bool
  | [] => (if acc = [] then [] else [dropCR acc], false)
  | b :: rest =>
    if b = LF then
      let r := scanTokens [] rest
      (dropCR acc :: r.1, r.2)
    else if maxScanTokenSize ≤ acc.length + 1 then ([], true)
    else scanTokens (acc ++ [b]) rest

/-- The call `bufio.NewScanner(f)`, as the stream of its tokens and its final error flag. -/
def newScanner (data : List UInt8) : List GoString × Bool := scanTokens [] data

/-- The call `strings.SplitN(s, " ", 2)`: the text before the first space and the text after it, or the
whole string alone when it holds no space. -/
def splitN2 (s : GoString) : List GoString :=
  match s.span (fun b => b != SP) with
  | (a, []) => [a]
  | (a, _ :: b) => [a, b]

/-! ## Errors -/

/-- Go error values built in `app.go`. -/
inductive Err where
  /-- The value `bufio.ErrTooLong`. -/
  | tooLong : Err
  /-- An error `fmt.Errorf(format, text)` over a string. -/
  | msg (format : String) (text : GoString) : Err
  /-- An error `fmt.Errorf(format, err)` over an error. -/
  | wrap (format : String) (inner : Err) : Err
  deriving DecidableEq

/-! ## Selection file -/

/-- The loop `for s.Scan() && s.Text() != ""` of `loadFiles` over the remaining tokens of the
scanner: the collected list, and whether the scanner holds an error when the loop ends. -/
def loadLoop : List GoString → Bool → List GoString × Bool
  | [], e => ([], e)
  | t :: ts, e =>
    if t = [] then ([], false)
    else
      let r := loadLoop ts e
      (t :: r.1, r.2)

/-- The function `loadFiles`: the named results `(list, cp, err)`, from the file at `gFilesPath`. -/
def loadFiles (gFiles : Option (List UInt8)) : List GoString × Bool × Option Err :=
  match gFiles with
  | none => ([], false, none)
  | some data =>
    let s := newScanner data
    -- s.Scan(); s.Text() is "" when that first Scan fails
    let text := s.1.headD []
    if text = ascii "copy" ∨ text = ascii "move" then
      let cp := decide (text = ascii "copy")
      let r := loadLoop s.1.tail s.2
      if r.2 then (r.1, cp, some (Err.wrap "scanning file list: %s" Err.tooLong))
      else (r.1, cp, none)
    else ([], false, some (Err.msg "unexpected option to copy file(s): %s" text))

/-- The call `fmt.Fprintln(files, s)`: the string and a line feed are appended to the file. -/
def fprintln (out : List UInt8) (s : GoString) : List UInt8 := out ++ s ++ [LF]

/-- The function `saveFiles`: the file at `gFilesPath` afterwards, and the returned error. -/
def saveFiles (list : List GoString) (cp : Bool) : Option (List UInt8) × Option Err :=
  -- os.Create truncates the file
  let files : List UInt8 := []
  let files := if cp then fprintln files (ascii "copy") else fprintln files (ascii "move")
  (some (list.foldl fprintln files), none)

/-! ## History -/

/-- One history entry (`cmdItem`); the field `pfx` is the source field named "prefix". -/
structure cmdItem where
  pfx : GoString
  value : GoString
  deriving DecidableEq

/-- The history fields of `app` (the navigation and interface state it points to are `nav` and
`ui` below).  `cmdHistoryBeg` only ever receives `len(app.cmdHistory)`, so it is a natural
number. -/
structure app where
  cmdHistory : List cmdItem
  cmdHistoryBeg : Nat
  cmdHistoryInd : Int
  deriving DecidableEq

/-- The five recognised prefixes, in the order `readHistory` tests them. -/
def historyPrefixes : List GoString := [ascii ":", ascii "$", ascii "%", ascii "!", ascii "&"]

/-- The body of the scanning loop of `readHistory` for one line. -/
def readHistoryLine (hist : List cmdItem) (text : GoString) : List cmdItem :=
  let toks := splitN2 text
  let tok0 := toks.headD []
  if tok0 ≠ ascii ":" ∧ tok0 ≠ ascii "$" ∧ tok0 ≠ ascii "%" ∧ tok0 ≠ ascii "!" ∧
      tok0 ≠ ascii "&" then
    hist
  else if toks.length < 2 then
    hist
  else
    hist ++ [⟨tok0, toks.getD 1 []⟩]

/-- The method `app.readHistory`: the app afterwards and the returned error, from the file at
`gHistoryPath`. -/
def readHistory (a : app) (gHistory : Option (List UInt8)) : app × Option Err :=
  match gHistory with
  | none => (a, none)
  | some data =>
    let scanner := newScanner data
    let a := { a with cmdHistory := scanner.1.foldl readHistoryLine a.cmdHistory }
    let a := { a with cmdHistoryBeg := a.cmdHistory.length }
    if scanner.2 then (a, some (Err.wrap "reading history file: %s" Err.tooLong))
    else (a, none)

/-- The call `f.WriteString(fmt.Sprintf("%s %s\n", cmd.prefix, cmd.value))`. -/
def writeCmd (f : List UInt8) (cmd : cmdItem) : List UInt8 :=
  f ++ (cmd.pfx ++ [SP] ++ cmd.value ++ [LF])

/-- The result of `app.writeHistory`: the app and the history file afterwards, and the returned
error. -/
structure WriteResult where
  app : app
  file : Option (List UInt8)
  err : Option Err
  deriving DecidableEq

/-- The method `app.writeHistory`.  `none` is the run-time panic of `make` and of the slice
expression when `cmdHistoryBeg` exceeds `len(app.cmdHistory)`. -/
def writeHistory (a : app) (gHistory : Option (List UInt8)) : Option WriteResult :=
  if a.cmdHistory.length = 0 then some ⟨a, gHistory, none⟩
  else if a.cmdHistory.length < a.cmdHistoryBeg then none
  else
    let locals := a.cmdHistory.drop a.cmdHistoryBeg
    let a := { a with cmdHistory := [] }
    match readHistory a gHistory with
    | (a, some err) => some ⟨a, gHistory, some (Err.wrap "reading history file: %s" err)⟩
    | (a, none) =>
      let a := { a with cmdHistory := a.cmdHistory ++ locals }
      -- os.Create truncates the file
      let f : List UInt8 := []
      let a :=
        if a.cmdHistory.length > 1000 then
          { a with cmdHistory := a.cmdHistory.drop (a.cmdHistory.length - 1000) }
        else a
      some ⟨a, some (a.cmdHistory.foldl writeCmd f), none⟩

/-! ## Reactor loop: state -/

/-- Modelled from the spec: the directory snapshot type `dir` is declared outside the given
sources; a snapshot carries the fields `app.loop` reads and writes (`path`, `ind`, `loading`). -/
structure dir where
  path : GoString
  ind : Int
  loading : Bool
  deriving DecidableEq

/-- Modelled from the spec: the file type returned by `nav.currFile` is declared outside the
given sources; `app.loop` reads its `path`. -/
structure file where
  path : GoString
  deriving DecidableEq

/-- Modelled from the spec: the type `nav` is declared outside the given sources.  These are the
fields `app.loop` uses in the modelled cases: the navigation stack, the directory cache (a Go
map, here a lookup function), the viewport height, and the operation counters, "six integers
plus three throttle counters".  A counter holds the value of a Go integer; the width at which
its additions wrap around is a parameter of `progressCase`. -/
structure nav where
  dirs : List dir
  dirCache : GoString → Option dir
  height : Int
  copyBytes : Int
  copyTotal : Int
  copyUpdate : Int
  moveCount : Int
  moveTotal : Int
  moveUpdate : Int
  deleteCount : Int
  deleteTotal : Int
  deleteUpdate : Int

/-- Modelled from the spec: the type `ui` is declared outside the given sources; `dirPrev` is the
"previous directory" reference used for preview panes. -/
structure ui where
  dirPrev : Option dir
  deriving DecidableEq

/-- What one pass through a `select` case does to the outside, in order. -/
inductive Effect where
  /-- The call `app.ui.draw(app.nav)`. -/
  | draw : Effect
  /-- The call `app.ui.echoerr(msg)`. -/
  | echoerr (msg : String) : Effect
  /-- A `log.Print` or `log.Printf` with this format. -/
  | log (format : String) : Effect
  /-- The evaluation of the registered "on-quit" command. -/
  | onQuit : Effect
  /-- The call `app.quit()`. -/
  | appQuit : Effect
  /-- The send of `""` on `app.nav.previewChan`. -/
  | previewStop : Effect
  /-- The write of the current directory to `gLastDirPath`. -/
  | writeLastDir : Effect
  deriving DecidableEq

/-- How a `select` case leaves the `for` loop of `app.loop`. -/
inductive Control where
  /-- The next cycle starts (`continue`, or the end of the case). -/
  | next : Control
  /-- The `return` of `app.loop`. -/
  | ret : Control
  deriving DecidableEq

/-! ## Reactor loop: quit signal -/

/-- The `select` case of `app.quitChan`.  `onQuit` says whether `gOpts.cmds` holds "on-quit",
`lastDir` whether `gLastDirPath` is not the empty string. -/
def quitCase (onQuit lastDir : Bool) (n : nav) : List Effect × Control :=
  if n.copyTotal > 0 then
    ([Effect.echoerr "quit: copy operation in progress"], Control.next)
  else if n.moveTotal > 0 then
    ([Effect.echoerr "quit: move operation in progress"], Control.next)
  else if n.deleteTotal > 0 then
    ([Effect.echoerr "quit: delete operation in progress"], Control.next)
  else
    ((if onQuit then [Effect.onQuit] else [])
      ++ [Effect.appQuit, Effect.previewStop, Effect.log "bye!"]
      ++ (if lastDir then [Effect.writeLastDir] else []),
     Control.ret)

/-! ## Reactor loop: progress channels -/

/-- A message on one of the six progress channels of `nav`. -/
inductive Progress where
  | copyBytes (n : Int) : Progress
  | copyTotal (n : Int) : Progress
  | moveCount (n : Int) : Progress
  | moveTotal (n : Int) : Progress
  | deleteCount (n : Int) : Progress
  | deleteTotal (n : Int) : Progress
  deriving DecidableEq

/-- The widths in bits of the Go integer types of the counters.  The types are declared outside
the given sources, so their widths are parameters.  The statements `copyBytes += n` and
`copyTotal += n` take `n` from a channel, so both counters of a kind have the type of their
channels: one width for copy, one for move, one for delete. -/
structure Widths where
  copy : Nat
  move : Nat
  delete : Nat
  deriving DecidableEq

/-- The value a signed Go integer of the given width holds after an operation whose exact result
is `x`: the result wraps around (two's complement). -/
def wrapInt (bits : Nat) (x : Int) : Int :=
  (x + 2 ^ bits / 2) % 2 ^ bits - 2 ^ bits / 2

/-- The `select` cases of the six progress channels.  The additions to the six counters are Go
`+=` at the width of the counter.  The throttle counters are compared with 1024 and 1000, so
their type holds these values, and the statement `copyUpdate++` is exact below them. -/
def progressCase (w : Widths) (nv : nav) : Progress → nav × List Effect
  | Progress.copyBytes n =>
    let nv := { nv with copyBytes := wrapInt w.copy (nv.copyBytes + n) }
    let nv := { nv with copyUpdate := nv.copyUpdate + 1 }
    if nv.copyUpdate ≥ 1024 then ({ nv with copyUpdate := 0 }, [Effect.draw]) else (nv, [])
  | Progress.copyTotal n =>
    let nv := { nv with copyTotal := wrapInt w.copy (nv.copyTotal + n) }
    let nv := if n < 0 then { nv with copyBytes := wrapInt w.copy (nv.copyBytes + n) } else nv
    let nv := if nv.copyTotal = 0 then { nv with copyUpdate := 0 } else nv
    (nv, [Effect.draw])
  | Progress.moveCount n =>
    let nv := { nv with moveCount := wrapInt w.move (nv.moveCount + n) }
    let nv := { nv with moveUpdate := nv.moveUpdate + 1 }
    if nv.moveUpdate ≥ 1000 then ({ nv with moveUpdate := 0 }, [Effect.draw]) else (nv, [])
  | Progress.moveTotal n =>
    let nv := { nv with moveTotal := wrapInt w.move (nv.moveTotal + n) }
    let nv := if n < 0 then { nv with moveCount := wrapInt w.move (nv.moveCount + n) } else nv
    let nv := if nv.moveTotal = 0 then { nv with moveUpdate := 0 } else nv
    (nv, [Effect.draw])
  | Progress.deleteCount n =>
    let nv := { nv with deleteCount := wrapInt w.delete (nv.deleteCount + n) }
    let nv := { nv with deleteUpdate := nv.deleteUpdate + 1 }
    if nv.deleteUpdate ≥ 1000 then ({ nv with deleteUpdate := 0 }, [Effect.draw]) else (nv, [])
  | Progress.deleteTotal n =>
    let nv := { nv with deleteTotal := wrapInt w.delete (nv.deleteTotal + n) }
    let nv :=
      if n < 0 then { nv with deleteCount := wrapInt w.delete (nv.deleteCount + n) } else nv
    let nv := if nv.deleteTotal = 0 then { nv with deleteUpdate := 0 } else nv
    (nv, [Effect.draw])

/-- The cycles of `app.loop` that receive the given progress messages, one after the other: the
counters afterwards, and for each message the effects of its case. -/
def runProgress (w : Widths) (nv : nav) : List Progress → nav × List (List Effect)
  | [] => (nv, [])
  | m :: ms =>
    let r := progressCase w nv m
    let rest := runProgress w r.1 ms
    (rest.1, r.2 :: rest.2)

/-! ## Reactor loop: directory channel -/

/-- The collaborators of the directory case that are declared outside the given sources, taken
as parameters: `nav.checkDir`, `nav.position`, `nav.currFile` (`none` when it returns an error),
`nav.currDir`, `dir.sel`, `dir.name`, `ui.loadFile`, and the option `gOpts.dircache`.

The call `app.nav.checkDir(d)` is a method on the pointer `app.nav` with the pointer `d` as its
argument, so it may change both: `checkDir` gives its boolean result, the navigation state as
it leaves it and the snapshot as it leaves it. -/
structure Collab where
  checkDir : nav → dir → Bool × nav × dir
  position : nav → nav
  currFile : nav → Option file
  currDir : nav → dir
  sel : dir → GoString → Int → dir
  name : dir → GoString
  loadFile : ui → nav → Bool → ui
  dircache : Bool

/-- The statements `d.ind = prev.ind` and `d.sel(prev.name(), app.nav.height)` of the directory
case, run when the cache holds a snapshot `prev` for the path of `d`: the snapshot that is then
stored. -/
def carryOver (c : Collab) (nv : nav) (d : dir) : dir :=
  match nv.dirCache d.path with
  | some prev => c.sel { d with ind := prev.ind } (c.name prev) nv.height
  | none => d

/-- The statement `app.nav.dirCache[d.path] = d`. -/
def cacheStore (nv : nav) (d : dir) : nav :=
  { nv with dirCache := fun p => if p = d.path then some d else nv.dirCache p }

/-- The loop `for i := range app.nav.dirs` of the directory case: every directory of the stack
with the path of `d` is replaced by `d`. -/
def replaceDirs (nv : nav) (d : dir) : nav :=
  { nv with dirs := nv.dirs.map (fun x => if x.path = d.path then d else x) }

/-- The `select` case of `app.nav.dirChan` for the snapshot `d`. -/
def dirCase (c : Collab) (nv : nav) (u : ui) (d : dir) : nav × ui × List Effect :=
  let checked := c.checkDir nv d
  let nv := checked.2.1
  let d := checked.2.2
  if !checked.1 then
    (nv, u, [Effect.log "debug: dirChan skip/reload %s"])
  else
    let r : dir × nav :=
      if c.dircache then
        let d := carryOver c nv d
        (d, cacheStore nv d)
      else (d, nv)
    let d := r.1
    let nv := r.2
    let nv := replaceDirs nv d
    let nv := c.position nv
    let u :=
      match c.currFile nv with
      | some curr =>
        let u := if d.path = (c.currDir nv).path then c.loadFile u nv true else u
        if d.path = curr.path then { u with dirPrev := some d } else u
      | none => u
    (nv, u, [Effect.log "debug: dirChan %s %t", Effect.draw])

/-! ## Reactor loop: invalidation phase -/

/-- The variable `gInvalidate`. -/
structure Invalidate where
  sort : Bool
  pos : Bool
  dir : Bool
  navSize : Bool
  mouse : Bool
  period : Bool
  deriving DecidableEq

/-- The function `init` of `app.go`: every flag starts true. -/
def init : Invalidate := ⟨true, true, true, true, true, true⟩

/-- The six resync handlers, named after their flags. -/
inductive Handler where
  | sort | pos | dir | navSize | mouse | period
  deriving DecidableEq

/-- The flag of a handler. -/
def Invalidate.flag (g : Invalidate) : Handler → Bool
  | Handler.sort => g.sort
  | Handler.pos => g.pos
  | Handler.dir => g.dir
  | Handler.navSize => g.navSize
  | Handler.mouse => g.mouse
  | Handler.period => g.period

/-- The state of a cycle during the invalidation phase: the flags, the rest of the program
state, and the handlers that have run so far in this cycle. -/
structure Cycle (σ : Type) where
  gInvalidate : Invalidate
  state : σ
  ran : List Handler
  deriving DecidableEq

/-- The statements a handler stands for are calls into code outside the given sources
(`nav.sort`, `ui.sort`, `nav.position`, `ui.loadFile`, ...): a parameter that may change the
flags and the rest of the state. -/
abbrev Bodies (σ : Type) := Handler → Invalidate × σ → Invalidate × σ

/-- The flags with the flag of one handler set to true. -/
def Invalidate.raise (g : Invalidate) : Handler → Invalidate
  | Handler.sort => { g with sort := true }
  | Handler.pos => { g with pos := true }
  | Handler.dir => { g with dir := true }
  | Handler.navSize => { g with navSize := true }
  | Handler.mouse => { g with mouse := true }
  | Handler.period => { g with period := true }

/-- Modelled from the spec: the handler bodies are outside the given sources; a flag is "cleared
immediately after [its] handler runs, set again by any handler that changes the underlying
condition", and a component "must set the corresponding flag rather than acting immediately".
So a handler body changes the rest of the state and may set flags, and the only statements
that clear a flag are those of `app.loop`.  The parameter `f` gives, for a handler and the
state it finds, the state it leaves and the flags it sets. -/
def specBodies {σ : Type} (f : Handler → Invalidate × σ → σ × List Handler) : Bodies σ :=
  fun h x => ((f h x).2.foldl Invalidate.raise x.1, (f h x).1)

/-- The block `if gInvalidate.sort { ...; gInvalidate.sort = false }`. -/
def sortBlock {σ : Type} (body : Bodies σ) (c : Cycle σ) : Cycle σ :=
  if c.gInvalidate.sort then
    let r := body Handler.sort (c.gInvalidate, c.state)
    { gInvalidate := { r.1 with sort := false }, state := r.2, ran := c.ran ++ [Handler.sort] }
  else c

/-- The block `if gInvalidate.pos { ...; gInvalidate.pos = false }`. -/
def posBlock {σ : Type} (body : Bodies σ) (c : Cycle σ) : Cycle σ :=
  if c.gInvalidate.pos then
    let r := body Handler.pos (c.gInvalidate, c.state)
    { gInvalidate := { r.1 with pos := false }, state := r.2, ran := c.ran ++ [Handler.pos] }
  else c

/-- The block `if gInvalidate.dir { ...; gInvalidate.dir = false }`. -/
def dirBlock {σ : Type} (body : Bodies σ) (c : Cycle σ) : Cycle σ :=
  if c.gInvalidate.dir then
    let r := body Handler.dir (c.gInvalidate, c.state)
    { gInvalidate := { r.1 with dir := false }, state := r.2, ran := c.ran ++ [Handler.dir] }
  else c

/-- The block `if gInvalidate.navSize { ...; gInvalidate.navSize = false }`. -/
def navSizeBlock {σ : Type} (body : Bodies σ) (c : Cycle σ) : Cycle σ :=
  if c.gInvalidate.navSize then
    let r := body Handler.navSize (c.gInvalidate, c.state)
    { gInvalidate := { r.1 with navSize := false }, state := r.2,
      ran := c.ran ++ [Handler.navSize] }
  else c

/-- The block `if gInvalidate.mouse { ...; gInvalidate.mouse = false }`. -/
def mouseBlock {σ : Type} (body : Bodies σ) (c : Cycle σ) : Cycle σ :=
  if c.gInvalidate.mouse then
    let r := body Handler.mouse (c.gInvalidate, c.state)
    { gInvalidate := { r.1 with mouse := false }, state := r.2, ran := c.ran ++ [Handler.mouse] }
  else c

/-- The block `if gInvalidate.period { ...; gInvalidate.period = false }`. -/
def periodBlock {σ : Type} (body : Bodies σ) (c : Cycle σ) : Cycle σ :=
  if c.gInvalidate.period then
    let r := body Handler.period (c.gInvalidate, c.state)
    { gInvalidate := { r.1 with period := false }, state := r.2,
      ran := c.ran ++ [Handler.period] }
  else c

/-- The cycle after the first block of the invalidation phase, started with flags `g`. -/
def afterSort {σ : Type} (body : Bodies σ) (g : Invalidate) (s : σ) : Cycle σ :=
  sortBlock body ⟨g, s, []⟩

/-- The cycle after the second block of the invalidation phase. -/
def afterPos {σ : Type} (body : Bodies σ) (g : Invalidate) (s : σ) : Cycle σ :=
  posBlock body (afterSort body g s)

/-- The cycle after the third block of the invalidation phase. -/
def afterDir {σ : Type} (body : Bodies σ) (g : Invalidate) (s : σ) : Cycle σ :=
  dirBlock body (afterPos body g s)

/-- The cycle after the fourth block of the invalidation phase. -/
def afterNavSize {σ : Type} (body : Bodies σ) (g : Invalidate) (s : σ) : Cycle σ :=
  navSizeBlock body (afterDir body g s)

/-- The cycle after the fifth block of the invalidation phase. -/
def afterMouse {σ : Type} (body : Bodies σ) (g : Invalidate) (s : σ) : Cycle σ :=
  mouseBlock body (afterNavSize body g s)

/-- The invalidation phase at the start of a cycle of `app.loop` ("process invalidate flags"):
the six blocks in the order of the source. -/
def processInvalidate {σ : Type} (body : Bodies σ) (g : Invalidate) (s : σ) : Cycle σ :=
  periodBlock body (afterMouse body g s)


/-! ## Sample states -/

/-- A navigation state with every counter at zero, an empty stack and an empty cache. -/
def zeroNav : nav :=
  { dirs := [], dirCache := fun _ => none, height := 0,
    copyBytes := 0, copyTotal := 0, copyUpdate := 0,
    moveCount := 0, moveTotal := 0, moveUpdate := 0,
    deleteCount := 0, deleteTotal := 0, deleteUpdate := 0 }

/-! ## Deltas of a message sequence -/

/-- The deltas received on `copyBytesChan`, in order. -/
def copyBytesDeltas (ms : List Progress) : List Int :=
  ms.filterMap (fun m => match m with | Progress.copyBytes n => some n | _ => none)

/-- The deltas received on `copyTotalChan`, in order. -/
def copyTotalDeltas (ms : List Progress) : List Int :=
  ms.filterMap (fun m => match m with | Progress.copyTotal n => some n | _ => none)

/-- The deltas received on `moveCountChan`, in order. -/
def moveCountDeltas (ms : List Progress) : List Int :=
  ms.filterMap (fun m => match m with | Progress.moveCount n => some n | _ => none)

/-- The deltas received on `moveTotalChan`, in order. -/
def moveTotalDeltas (ms : List Progress) : List Int :=
  ms.filterMap (fun m => match m with | Progress.moveTotal n => some n | _ => none)

/-- The deltas received on `deleteCountChan`, in order. -/
def deleteCountDeltas (ms : List Progress) : List Int :=
  ms.filterMap (fun m => match m with | Progress.deleteCount n => some n | _ => none)

/-- The deltas received on `deleteTotalChan`, in order. -/
def deleteTotalDeltas (ms : List Progress) : List Int :=
  ms.filterMap (fun m => match m with | Progress.deleteTotal n => some n | _ => none)

/-- The sum of the negative deltas of a list. -/
def negSum (ds : List Int) : Int := (ds.filter (fun n => n < 0)).sum

/-- Whether an exact result lies in the range of a signed Go integer of the given width. -/
def inRange (bits : Nat) (x : Int) : Prop := -(2 ^ bits / 2) ≤ x ∧ x < 2 ^ bits / 2

instance (bits : Nat) (x : Int) : Decidable (inRange bits x) := by
  unfold inRange
  infer_instance

/-- Counters of 64 bits (`int64`, and `int` on a 64-bit platform). -/
def w64 : Widths := ⟨64, 64, 64⟩

/-- Two copy-total deltas of a 64-bit counter: the largest value, and one more. -/
def overflowProgress : List Progress :=
  [Progress.copyTotal 9223372036854775807, Progress.copyTotal 1]

/-- A sample interleaving of progress messages with two negative total deltas. -/
def sampleProgress : List Progress :=
  [Progress.copyTotal 10, Progress.copyBytes 4, Progress.moveTotal 2, Progress.copyTotal (-3),
   Progress.moveCount 1, Progress.deleteTotal 1, Progress.deleteCount 1, Progress.deleteTotal (-1)]

/-- Whether the `i`-th message of a run (counted from 1) made its case redraw. -/
def redrawAt (effects : List (List Effect)) (i : Nat) : Prop :=
  Effect.draw ∈ effects.getD (i - 1) []

instance (effects : List (List Effect)) (i : Nat) : Decidable (redrawAt effects i) := by
  unfold redrawAt
  infer_instance

/-- The six handlers in the order of the source. -/
def handlerOrder : List Handler :=
  [Handler.sort, Handler.pos, Handler.dir, Handler.navSize, Handler.mouse, Handler.period]

/-- The flags with the flag of one handler set to false. -/
def Invalidate.clear (g : Invalidate) : Handler → Invalidate
  | Handler.sort => { g with sort := false }
  | Handler.pos => { g with pos := false }
  | Handler.dir => { g with dir := false }
  | Handler.navSize => { g with navSize := false }
  | Handler.mouse => { g with mouse := false }
  | Handler.period => { g with period := false }

/-- What the specification says of one handler in a cycle: when its flag is set, the handler
runs, and its flag is cleared right after; otherwise nothing happens. -/
def phaseStep {σ : Type} (body : Bodies σ) (c : Cycle σ) (h : Handler) : Cycle σ :=
  if c.gInvalidate.flag h then
    { gInvalidate := (body h (c.gInvalidate, c.state)).1.clear h,
      state := (body h (c.gInvalidate, c.state)).2,
      ran := c.ran ++ [h] }
  else c

/-- The invalidation phase in the words of the specification: the six handlers are gone
through once, in the fixed order. -/
def phaseSpec {σ : Type} (body : Bodies σ) (g : Invalidate) (s : σ) : Cycle σ :=
  handlerOrder.foldl (phaseStep body) ⟨g, s, []⟩

/-- The flags and the state after the given handlers have run one after the other, each
followed by the clearing of its flag. -/
def runHandlers {σ : Type} (body : Bodies σ) (hs : List Handler) (x : Invalidate × σ) :
    Invalidate × σ :=
  hs.foldl (fun x h => ((body h x).1.clear h, (body h x).2)) x

/-- Handlers over a state that counts the handlers that have run; the sort handler sets the
position flag again, the others set no flag. -/
def sampleHandlers : Handler → Invalidate × Nat → Nat × List Handler :=
  fun h x => (x.2 + 1, if h = Handler.sort then [Handler.pos] else [])

/-- The handler bodies of `sampleHandlers`. -/
def sampleBodies : Bodies Nat := specBodies sampleHandlers

/-- Collaborators with a `checkDir` that accepts every snapshot and changes nothing, with the
directory cache enabled. -/
def acceptAll : Collab :=
  { checkDir := fun nv d => (true, nv, d)
    position := fun nv => nv
    currFile := fun _ => none
    currDir := fun _ => ⟨[], 0, false⟩
    sel := fun d _ _ => d
    name := fun d => d.path
    loadFile := fun u _ _ => u
    dircache := true }

/-- A snapshot of the directory "/x". -/
def sampleDir : dir := ⟨ascii "/x", 0, false⟩

/-- A navigation state with the stack "/", "/x" and the directory "/x" in the cache, with its
cursor at entry 3. -/
def sampleNav : nav :=
  { zeroNav with
    dirs := [⟨ascii "/", 0, false⟩, ⟨ascii "/x", 3, false⟩]
    dirCache := fun p => if p = ascii "/x" then some ⟨ascii "/x", 3, false⟩ else none }

/-- Collaborators with a `checkDir` that changes nothing and rejects a snapshot equal to the
cached one; the selected file is the directory "/x", and `sel` leaves the cursor alone. -/
def dropDuplicates : Collab :=
  { acceptAll with
    checkDir := fun nv d => (nv.dirCache d.path != some d, nv, d)
    currFile := fun _ => some ⟨ascii "/x"⟩ }

/-! ## Lines of a text file -/

/-- A list of segments without a final empty segment. -/
def dropFinalEmpty : List GoString → List GoString
  | [] => []
  | [l] => if l = [] then [] else [l]
  | l :: l2 :: ls => l :: dropFinalEmpty (l2 :: ls)

/-- The lines of a text file as they stand between the line feeds: the file is cut at every
line feed, and what follows the last line feed is a line only when it is not empty. -/
def rawLines (data : List UInt8) : List GoString :=
  dropFinalEmpty (data.splitOnP (fun b => b == LF))

/-- The lines of a text file, each without the carriage return of a CR LF line end. -/
def fileLines (data : List UInt8) : List GoString := (rawLines data).map dropCR

/-- The text of lines that each end in a line feed. -/
def unlines (ls : List GoString) : List UInt8 := (ls.map (fun l => l ++ [LF])).flatten

/-- A string that a line of a text file can hold and give back: no line feed in it, no carriage
return at its end, and short enough for the scanner buffer together with `extra` more bytes. -/
def LineSafe (extra : Nat) (s : GoString) : Prop :=
  LF ∉ s ∧ s.getLast? ≠ some CR ∧ s.length + extra < maxScanTokenSize

instance (extra : Nat) (s : GoString) : Decidable (LineSafe extra s) := by
  unfold LineSafe
  infer_instance

/-- Whether a line, as it stands before its line feed, does not fit the scanner buffer: it has
65536 bytes or more. -/
def overLong (l : GoString) : Bool := decide (maxScanTokenSize ≤ l.length)

/-- The first of the given lines without the carriage return of a CR LF line end; the empty
string when there is no line or the first line is over-long. -/
def firstText : List GoString → GoString
  | [] => []
  | l :: _ => if overLong l then [] else dropCR l

/-- The first line of a selection file as `loadFiles` reads it: the first line without the
carriage return of a CR LF line end; the empty string when the file has no line or its first
line is over-long. -/
def firstLine (data : List UInt8) : GoString := firstText (rawLines data)

/-- The lines after the first line of a selection file. -/
def laterLines (data : List UInt8) : List GoString := (rawLines data).tail

/-- The lines, each without the carriage return of a CR LF line end, up to and excluding the
first line that is blank or over-long. -/
def selectionLines (ls : List GoString) : List GoString :=
  (ls.takeWhile (fun l => !overLong l && dropCR l != [])).map dropCR

/-- Whether the first line that is blank or over-long is an over-long one. -/
def stoppedAtLong (ls : List GoString) : Bool :=
  match ls.dropWhile (fun l => !overLong l && dropCR l != []) with
  | [] => false
  | l :: _ => overLong l

/-- A selection file whose first line is "copy" and whose second line has 65536 bytes. -/
def longSelection : List UInt8 := ascii "copy" ++ LF :: List.replicate 65536 97

/-- A selection file with the lines "copy", "/a", a blank line and a line of 65536 bytes. -/
def longAfterBlank : List UInt8 :=
  ascii "copy" ++ LF :: (ascii "/a" ++ LF :: ([] ++ LF :: List.replicate 65536 97))

/-- A selection file whose first line has 65536 bytes and whose second line is "/a". -/
def longFirstLine : List UInt8 := List.replicate 65536 97 ++ LF :: (ascii "/a" ++ [LF])

/-! ## History: the words of the specification -/

/-- The entry a history line stands for: a line of the form "<prefix> <value>", where the text
before the first space is one of the five prefixes and the value is the text after that space;
no entry for a line without a space or with another text before the first space. -/
def lineEntry (line : GoString) : Option cmdItem :=
  if SP ∈ line ∧ line.takeWhile (fun b => b != SP) ∈ historyPrefixes then
    some ⟨line.takeWhile (fun b => b != SP), (line.dropWhile (fun b => b != SP)).tail⟩
  else none

/-- The most recent `n` entries of a log. -/
def lastEntries (n : Nat) (log : List cmdItem) : List cmdItem := log.drop (log.length - n)

/-- The history file that holds the given entries: one line "<prefix> <value>" each. -/
def historyText (es : List cmdItem) : List UInt8 :=
  (es.map (fun e => e.pfx ++ [SP] ++ e.value ++ [LF])).flatten

/-- An app at start-up: no history. -/
def freshApp : app := ⟨[], 0, 0⟩

/-- The entries `readHistory` parses from the history file. -/
def diskEntries (gHistory : Option (List UInt8)) : List cmdItem :=
  (readHistory freshApp gHistory).1.cmdHistory

/-- Modelled from the spec: the function that records a command is outside the given sources;
"`record(prefix, value)` appends to the in-session log only for recognized prefixes; all other
prefixes are silently dropped". -/
def record (a : app) (e : cmdItem) : app :=
  if e.pfx ∈ historyPrefixes then { a with cmdHistory := a.cmdHistory ++ [e] } else a

/-- The entries that `record` keeps: those with a recognised prefix. -/
def recorded (news : List cmdItem) : List cmdItem :=
  news.filter (fun e => decide (e.pfx ∈ historyPrefixes))

/-- An entry that a history line can hold and give back: a recognised prefix, and a value
without line feed, without carriage return at its end, and short enough for the scanner. -/
def EntrySafe (e : cmdItem) : Prop := e.pfx ∈ historyPrefixes ∧ LineSafe 2 e.value

instance (e : cmdItem) : Decidable (EntrySafe e) := by
  unfold EntrySafe
  infer_instance

/-- A history file whose first line has 65536 bytes and whose second line is ": foo". -/
def longHistory : List UInt8 := List.replicate 65536 97 ++ LF :: (ascii ": foo" ++ [LF])

/-- The history line of an entry, without its line feed. -/
def entryLine (e : cmdItem) : GoString := e.pfx ++ SP :: e.value

/-- A session that loaded ": old", while another instance has since added "$ ls" to the file,
and that recorded "! rm x" itself. -/
def sampleSession : app := ⟨[⟨ascii ":", ascii "old"⟩, ⟨ascii "!", ascii "rm x"⟩], 1, 0⟩

/-- Two calls of `writeHistory` in a row with nothing recorded in between: the two results. -/
def writeTwice (a : app) (gHistory : Option (List UInt8)) : Option (WriteResult × WriteResult) :=
  (writeHistory a gHistory).bind fun r1 =>
    (writeHistory r1.app r1.file).map fun r2 => (r1, r2)

/-! ## Quit gate -/

theorem quitCase_ret (onQuit lastDir : Bool) (nv : nav) :
    (quitCase onQuit lastDir nv).2 = Control.ret ↔
      nv.copyTotal ≤ 0 ∧ nv.moveTotal ≤ 0 ∧ nv.deleteTotal ≤ 0 := by
  unfold quitCase
  split_ifs <;> simp <;> omega

/-- C1 (counterexample): with `copyTotal = -1` and the other totals zero the quit is accepted,
although a total is nonzero. -/
theorem quit_negative_total_accepted :
    ({ zeroNav with copyTotal := -1 } : nav).copyTotal ≠ 0 ∧
      quitCase false false { zeroNav with copyTotal := -1 }
        = ([Effect.appQuit, Effect.previewStop, Effect.log "bye!"], Control.ret) := by
  decide

/-- C1 (amended): the quit case ends the loop exactly when none of the three totals is positive,
in particular when all three are zero; when a total is positive the case echoes one error
message, runs no shutdown step and the loop goes on. -/
theorem quit_gate (onQuit lastDir : Bool) (nv : nav) :
    ((quitCase onQuit lastDir nv).2 = Control.ret ↔
        nv.copyTotal ≤ 0 ∧ nv.moveTotal ≤ 0 ∧ nv.deleteTotal ≤ 0) ∧
    ((nv.copyTotal = 0 ∧ nv.moveTotal = 0 ∧ nv.deleteTotal = 0) →
        (quitCase onQuit lastDir nv).2 = Control.ret ∧
        Effect.appQuit ∈ (quitCase onQuit lastDir nv).1) ∧
    ((0 < nv.copyTotal ∨ 0 < nv.moveTotal ∨ 0 < nv.deleteTotal) →
        (quitCase onQuit lastDir nv).2 = Control.next ∧
        ∃ msg, (quitCase onQuit lastDir nv).1 = [Effect.echoerr msg]) := by
  refine ⟨quitCase_ret onQuit lastDir nv, ?_, ?_⟩
  · rintro ⟨h1, h2, h3⟩
    simp [quitCase, h1, h2, h3]
  · intro h
    unfold quitCase
    split_ifs
    all_goals first | exact ⟨rfl, _, rfl⟩ | omega

/-- C1 (amended), at a state with a copy in progress and at the all-zero state. -/
theorem quit_gate_witness :
    (quitCase true true { zeroNav with copyTotal := 5 }).2 = Control.next ∧
    (quitCase true true zeroNav).2 = Control.ret := by
  refine ⟨((quit_gate true true { zeroNav with copyTotal := 5 }).2.2 (Or.inl (by decide))).1,
    ((quit_gate true true zeroNav).2.1 ⟨rfl, rfl, rfl⟩).1⟩

/-! ## Progress counters -/

theorem wrapInt_add (bits : Nat) (x y : Int) :
    wrapInt bits (wrapInt bits x + y) = wrapInt bits (x + y) := by
  unfold wrapInt
  have e : (x + 2 ^ bits / 2) % 2 ^ bits - 2 ^ bits / 2 + y + 2 ^ bits / 2
      = (x + 2 ^ bits / 2) % 2 ^ bits + y := by ring
  rw [e, Int.emod_add_emod]
  have e2 : x + 2 ^ bits / 2 + y = x + y + 2 ^ bits / 2 := by ring
  rw [e2]

theorem wrapInt_idem (bits : Nat) (x : Int) : wrapInt bits (wrapInt bits x) = wrapInt bits x := by
  have := wrapInt_add bits x 0
  simpa using this

theorem wrapInt_of_inRange (bits : Nat) (x : Int) (h : inRange bits x) : wrapInt bits x = x := by
  unfold wrapInt
  obtain ⟨h1, h2⟩ := h
  have hm : (2 : Int) ^ bits / 2 + 2 ^ bits / 2 ≤ 2 ^ bits := by omega
  rw [Int.emod_eq_of_lt (by omega) (by omega)]
  omega

theorem wrapInt_zero (bits : Nat) : wrapInt bits 0 = 0 := by
  unfold wrapInt
  have hpos : (0 : Int) < 2 ^ bits := by positivity
  by_cases h : (2 : Int) ^ bits / 2 < 2 ^ bits
  · rw [Int.zero_add, Int.emod_eq_of_lt (by omega) h]
    omega
  · have h0 : (2 : Int) ^ bits / 2 = 0 := by omega
    have h1 : (2 : Int) ^ bits = 1 := by omega
    rw [h0, h1]
    simp

theorem runProgress_counters (w : Widths) (ms : List Progress) : ∀ nv : nav,
    (nv.copyTotal = wrapInt w.copy nv.copyTotal ∧ nv.copyBytes = wrapInt w.copy nv.copyBytes ∧
      nv.moveTotal = wrapInt w.move nv.moveTotal ∧ nv.moveCount = wrapInt w.move nv.moveCount ∧
      nv.deleteTotal = wrapInt w.delete nv.deleteTotal ∧
      nv.deleteCount = wrapInt w.delete nv.deleteCount) →
    (runProgress w nv ms).1.copyTotal
      = wrapInt w.copy (nv.copyTotal + (copyTotalDeltas ms).sum) ∧
    (runProgress w nv ms).1.moveTotal
      = wrapInt w.move (nv.moveTotal + (moveTotalDeltas ms).sum) ∧
    (runProgress w nv ms).1.deleteTotal
      = wrapInt w.delete (nv.deleteTotal + (deleteTotalDeltas ms).sum) ∧
    (runProgress w nv ms).1.copyBytes
      = wrapInt w.copy (nv.copyBytes + ((copyBytesDeltas ms).sum + negSum (copyTotalDeltas ms))) ∧
    (runProgress w nv ms).1.moveCount
      = wrapInt w.move (nv.moveCount + ((moveCountDeltas ms).sum + negSum (moveTotalDeltas ms))) ∧
    (runProgress w nv ms).1.deleteCount
      = wrapInt w.delete
          (nv.deleteCount + ((deleteCountDeltas ms).sum + negSum (deleteTotalDeltas ms))) := by
  induction ms with
  | nil =>
    intro nv h
    simpa [runProgress, copyTotalDeltas, moveTotalDeltas, deleteTotalDeltas,
      copyBytesDeltas, moveCountDeltas, deleteCountDeltas, negSum] using
      ⟨h.1, h.2.2.1, h.2.2.2.2.1, h.2.1, h.2.2.2.1, h.2.2.2.2.2⟩
  | cons m ms ih =>
    intro nv h
    obtain ⟨a1, a2, a3, a4, a5, a6⟩ := h
    have hfix : (progressCase w nv m).1.copyTotal = wrapInt w.copy (progressCase w nv m).1.copyTotal ∧
        (progressCase w nv m).1.copyBytes = wrapInt w.copy (progressCase w nv m).1.copyBytes ∧
        (progressCase w nv m).1.moveTotal = wrapInt w.move (progressCase w nv m).1.moveTotal ∧
        (progressCase w nv m).1.moveCount = wrapInt w.move (progressCase w nv m).1.moveCount ∧
        (progressCase w nv m).1.deleteTotal
          = wrapInt w.delete (progressCase w nv m).1.deleteTotal ∧
        (progressCase w nv m).1.deleteCount
          = wrapInt w.delete (progressCase w nv m).1.deleteCount := by
      cases m <;> simp only [progressCase] <;> split_ifs <;>
        refine ⟨?_, ?_, ?_, ?_, ?_, ?_⟩ <;>
        first | assumption | exact (wrapInt_idem _ _).symm
    obtain ⟨h1, h2, h3, h4, h5, h6⟩ := ih (progressCase w nv m).1 hfix
    simp only [runProgress]
    rw [h1, h2, h3, h4, h5, h6]
    clear h1 h2 h3 h4 h5 h6 hfix a1 a2 a3 a4 a5 a6 ih
    cases m with
    | copyBytes n =>
      simp only [progressCase, copyTotalDeltas, moveTotalDeltas, deleteTotalDeltas,
        copyBytesDeltas, moveCountDeltas, deleteCountDeltas, negSum, List.filterMap_cons,
        List.sum_cons]
      split_ifs <;> simp [wrapInt_add, Int.add_assoc]
    | copyTotal n =>
      simp only [progressCase, copyTotalDeltas, moveTotalDeltas, deleteTotalDeltas,
        copyBytesDeltas, moveCountDeltas, deleteCountDeltas, negSum, List.filterMap_cons,
        List.sum_cons, List.filter_cons]
      split_ifs <;> simp only [wrapInt_add, List.sum_cons] <;>
        first
        | (exfalso; simp only [decide_eq_true_eq] at *; omega)
        | (refine ⟨?_, ?_, ?_, ?_, ?_, ?_⟩ <;> first | rfl | (congr 1; ring_nf))
    | moveCount n =>
      simp only [progressCase, copyTotalDeltas, moveTotalDeltas, deleteTotalDeltas,
        copyBytesDeltas, moveCountDeltas, deleteCountDeltas, negSum, List.filterMap_cons,
        List.sum_cons]
      split_ifs <;> simp [wrapInt_add, Int.add_assoc]
    | moveTotal n =>
      simp only [progressCase, copyTotalDeltas, moveTotalDeltas, deleteTotalDeltas,
        copyBytesDeltas, moveCountDeltas, deleteCountDeltas, negSum, List.filterMap_cons,
        List.sum_cons, List.filter_cons]
      split_ifs <;> simp only [wrapInt_add, List.sum_cons] <;>
        first
        | (exfalso; simp only [decide_eq_true_eq] at *; omega)
        | (refine ⟨?_, ?_, ?_, ?_, ?_, ?_⟩ <;> first | rfl | (congr 1; ring_nf))
    | deleteCount n =>
      simp only [progressCase, copyTotalDeltas, moveTotalDeltas, deleteTotalDeltas,
        copyBytesDeltas, moveCountDeltas, deleteCountDeltas, negSum, List.filterMap_cons,
        List.sum_cons]
      split_ifs <;> simp [wrapInt_add, Int.add_assoc]
    | deleteTotal n =>
      simp only [progressCase, copyTotalDeltas, moveTotalDeltas, deleteTotalDeltas,
        copyBytesDeltas, moveCountDeltas, deleteCountDeltas, negSum, List.filterMap_cons,
        List.sum_cons, List.filter_cons]
      split_ifs <;> simp only [wrapInt_add, List.sum_cons] <;>
        first
        | (exfalso; simp only [decide_eq_true_eq] at *; omega)
        | (refine ⟨?_, ?_, ?_, ?_, ?_, ?_⟩ <;> first | rfl | (congr 1; ring_nf))

/-- C2 (counterexample): with 64-bit counters, from all-zero counters, the copy-total deltas
9223372036854775807 and 1 leave `copyTotal` at -9223372036854775808, while the arithmetic sum
of the deltas is 9223372036854775808. -/
theorem progress_sum_overflow :
    (runProgress w64 zeroNav overflowProgress).1.copyTotal = -9223372036854775808 ∧
    (copyTotalDeltas overflowProgress).sum = 9223372036854775808 := by
  decide

/-- C2 (amended): from all-zero counters, after any sequence of progress messages each total
holds the sum of the deltas of its channel, and each progress counter the sum of the deltas of
its own channel plus the sum of the negative deltas of the matching total channel, wrapped
around at the width of the counter; whenever such a sum lies in the range of the counter, the
counter equals the sum. -/
theorem progress_sums (w : Widths) (nv : nav) (ms : List Progress)
    (h0 : nv.copyBytes = 0 ∧ nv.copyTotal = 0 ∧ nv.moveCount = 0 ∧ nv.moveTotal = 0 ∧
      nv.deleteCount = 0 ∧ nv.deleteTotal = 0) :
    ((runProgress w nv ms).1.copyTotal = wrapInt w.copy (copyTotalDeltas ms).sum ∧
     (runProgress w nv ms).1.moveTotal = wrapInt w.move (moveTotalDeltas ms).sum ∧
     (runProgress w nv ms).1.deleteTotal = wrapInt w.delete (deleteTotalDeltas ms).sum ∧
     (runProgress w nv ms).1.copyBytes
       = wrapInt w.copy ((copyBytesDeltas ms).sum + negSum (copyTotalDeltas ms)) ∧
     (runProgress w nv ms).1.moveCount
       = wrapInt w.move ((moveCountDeltas ms).sum + negSum (moveTotalDeltas ms)) ∧
     (runProgress w nv ms).1.deleteCount
       = wrapInt w.delete ((deleteCountDeltas ms).sum + negSum (deleteTotalDeltas ms))) ∧
    ((inRange w.copy (copyTotalDeltas ms).sum →
       (runProgress w nv ms).1.copyTotal = (copyTotalDeltas ms).sum) ∧
     (inRange w.move (moveTotalDeltas ms).sum →
       (runProgress w nv ms).1.moveTotal = (moveTotalDeltas ms).sum) ∧
     (inRange w.delete (deleteTotalDeltas ms).sum →
       (runProgress w nv ms).1.deleteTotal = (deleteTotalDeltas ms).sum) ∧
     (inRange w.copy ((copyBytesDeltas ms).sum + negSum (copyTotalDeltas ms)) →
       (runProgress w nv ms).1.copyBytes
         = (copyBytesDeltas ms).sum + negSum (copyTotalDeltas ms)) ∧
     (inRange w.move ((moveCountDeltas ms).sum + negSum (moveTotalDeltas ms)) →
       (runProgress w nv ms).1.moveCount
         = (moveCountDeltas ms).sum + negSum (moveTotalDeltas ms)) ∧
     (inRange w.delete ((deleteCountDeltas ms).sum + negSum (deleteTotalDeltas ms)) →
       (runProgress w nv ms).1.deleteCount
         = (deleteCountDeltas ms).sum + negSum (deleteTotalDeltas ms))) := by
  obtain ⟨a1, a2, a3, a4, a5, a6⟩ := h0
  obtain ⟨h1, h2, h3, h4, h5, h6⟩ := runProgress_counters w ms nv (by
    rw [a1, a2, a3, a4, a5, a6]
    simp only [wrapInt_zero, and_self])
  rw [a2, Int.zero_add] at h1
  rw [a4, Int.zero_add] at h2
  rw [a6, Int.zero_add] at h3
  rw [a1, Int.zero_add] at h4
  rw [a3, Int.zero_add] at h5
  rw [a5, Int.zero_add] at h6
  refine ⟨⟨h1, h2, h3, h4, h5, h6⟩, ?_, ?_, ?_, ?_, ?_, ?_⟩
  · intro hr; rw [h1, wrapInt_of_inRange _ _ hr]
  · intro hr; rw [h2, wrapInt_of_inRange _ _ hr]
  · intro hr; rw [h3, wrapInt_of_inRange _ _ hr]
  · intro hr; rw [h4, wrapInt_of_inRange _ _ hr]
  · intro hr; rw [h5, wrapInt_of_inRange _ _ hr]
  · intro hr; rw [h6, wrapInt_of_inRange _ _ hr]

/-- C2 (amended), on `sampleProgress` from `zeroNav` with 64-bit counters: the copy total is
10 - 3 and the copied bytes are 4 - 3; and on `overflowProgress` the copy total is the sum
wrapped around. -/
theorem progress_sums_witness :
    (runProgress w64 zeroNav sampleProgress).1.copyTotal = 7 ∧
    (runProgress w64 zeroNav sampleProgress).1.copyBytes = 1 ∧
    (runProgress w64 zeroNav overflowProgress).1.copyTotal
      = wrapInt 64 9223372036854775808 := by
  have h := progress_sums w64 zeroNav sampleProgress ⟨rfl, rfl, rfl, rfl, rfl, rfl⟩
  have h2 := progress_sums w64 zeroNav overflowProgress ⟨rfl, rfl, rfl, rfl, rfl, rfl⟩
  exact ⟨(h.2.1 (by decide)).trans (by decide), (h.2.2.2.2.1 (by decide)).trans (by decide),
    h2.1.1⟩

/-! ## Redraw throttle -/

theorem copyBytes_run (w : Widths) (ds : List Int) : ∀ (nv : nav) (i : Nat),
    0 ≤ nv.copyUpdate → nv.copyUpdate < 1024 → i < ds.length →
    (Effect.draw ∈ (runProgress w nv (ds.map Progress.copyBytes)).2.getD i [] ↔
      (1024 : Int) ∣ nv.copyUpdate + (i : Int) + 1) := by
  induction ds with
  | nil => intro nv i _ _ hi; simp at hi
  | cons d ds ih =>
    intro nv i h0 h1 hi
    cases i with
    | zero =>
      simp only [List.map_cons, runProgress, progressCase, List.getD_cons_zero]
      split_ifs with h <;> simp <;> omega
    | succ i =>
      simp only [List.map_cons, runProgress, List.getD_cons_succ]
      have hi2 : i < ds.length := by simpa using hi
      simp only [progressCase]
      split_ifs with h
      · rw [ih _ i (by simp) (by simp) hi2]
        simp only [Nat.cast_add, Nat.cast_one]
        omega
      · rw [ih _ i (by simp; omega) (by simp; omega) hi2]
        simp only [Nat.cast_add, Nat.cast_one]
        omega

theorem moveCount_run (w : Widths) (ds : List Int) : ∀ (nv : nav) (i : Nat),
    0 ≤ nv.moveUpdate → nv.moveUpdate < 1000 → i < ds.length →
    (Effect.draw ∈ (runProgress w nv (ds.map Progress.moveCount)).2.getD i [] ↔
      (1000 : Int) ∣ nv.moveUpdate + (i : Int) + 1) := by
  induction ds with
  | nil => intro nv i _ _ hi; simp at hi
  | cons d ds ih =>
    intro nv i h0 h1 hi
    cases i with
    | zero =>
      simp only [List.map_cons, runProgress, progressCase, List.getD_cons_zero]
      split_ifs with h <;> simp <;> omega
    | succ i =>
      simp only [List.map_cons, runProgress, List.getD_cons_succ]
      have hi2 : i < ds.length := by simpa using hi
      simp only [progressCase]
      split_ifs with h
      · rw [ih _ i (by simp) (by simp) hi2]
        simp only [Nat.cast_add, Nat.cast_one]
        omega
      · rw [ih _ i (by simp; omega) (by simp; omega) hi2]
        simp only [Nat.cast_add, Nat.cast_one]
        omega

theorem deleteCount_run (w : Widths) (ds : List Int) : ∀ (nv : nav) (i : Nat),
    0 ≤ nv.deleteUpdate → nv.deleteUpdate < 1000 → i < ds.length →
    (Effect.draw ∈ (runProgress w nv (ds.map Progress.deleteCount)).2.getD i [] ↔
      (1000 : Int) ∣ nv.deleteUpdate + (i : Int) + 1) := by
  induction ds with
  | nil => intro nv i _ _ hi; simp at hi
  | cons d ds ih =>
    intro nv i h0 h1 hi
    cases i with
    | zero =>
      simp only [List.map_cons, runProgress, progressCase, List.getD_cons_zero]
      split_ifs with h <;> simp <;> omega
    | succ i =>
      simp only [List.map_cons, runProgress, List.getD_cons_succ]
      have hi2 : i < ds.length := by simpa using hi
      simp only [progressCase]
      split_ifs with h
      · rw [ih _ i (by simp) (by simp) hi2]
        simp only [Nat.cast_add, Nat.cast_one]
        omega
      · rw [ih _ i (by simp; omega) (by simp; omega) hi2]
        simp only [Nat.cast_add, Nat.cast_one]
        omega

/-- C3: from a throttle counter of zero, the `i`-th (counted from 1) of consecutive copy-bytes
messages redraws exactly when `i` is a multiple of 1024, the `i`-th of consecutive move-count or
delete-count messages exactly when `i` is a multiple of 1000; and a total message that brings
its total to zero leaves the matching throttle counter at zero. -/
theorem redraw_throttle :
    (∀ (w : Widths) (nv : nav) (ds : List Int) (i : Nat), nv.copyUpdate = 0 → 1 ≤ i → i ≤ ds.length →
      (redrawAt (runProgress w nv (ds.map Progress.copyBytes)).2 i ↔ 1024 ∣ i)) ∧
    (∀ (w : Widths) (nv : nav) (ds : List Int) (i : Nat), nv.moveUpdate = 0 → 1 ≤ i → i ≤ ds.length →
      (redrawAt (runProgress w nv (ds.map Progress.moveCount)).2 i ↔ 1000 ∣ i)) ∧
    (∀ (w : Widths) (nv : nav) (ds : List Int) (i : Nat), nv.deleteUpdate = 0 → 1 ≤ i → i ≤ ds.length →
      (redrawAt (runProgress w nv (ds.map Progress.deleteCount)).2 i ↔ 1000 ∣ i)) ∧
    (∀ (w : Widths) (nv : nav) (n : Int), (progressCase w nv (Progress.copyTotal n)).1.copyTotal = 0 →
      (progressCase w nv (Progress.copyTotal n)).1.copyUpdate = 0) ∧
    (∀ (w : Widths) (nv : nav) (n : Int), (progressCase w nv (Progress.moveTotal n)).1.moveTotal = 0 →
      (progressCase w nv (Progress.moveTotal n)).1.moveUpdate = 0) ∧
    (∀ (w : Widths) (nv : nav) (n : Int), (progressCase w nv (Progress.deleteTotal n)).1.deleteTotal = 0 →
      (progressCase w nv (Progress.deleteTotal n)).1.deleteUpdate = 0) := by
  refine ⟨?_, ?_, ?_, ?_, ?_, ?_⟩
  · intro w nv ds i h0 h1 h2
    unfold redrawAt
    rw [copyBytes_run w ds nv (i - 1) (by omega) (by omega) (by omega), h0]
    omega
  · intro w nv ds i h0 h1 h2
    unfold redrawAt
    rw [moveCount_run w ds nv (i - 1) (by omega) (by omega) (by omega), h0]
    omega
  · intro w nv ds i h0 h1 h2
    unfold redrawAt
    rw [deleteCount_run w ds nv (i - 1) (by omega) (by omega) (by omega), h0]
    omega
  · intro w nv n
    simp only [progressCase]
    split_ifs <;> simp_all
  · intro w nv n
    simp only [progressCase]
    split_ifs <;> simp_all
  · intro w nv n
    simp only [progressCase]
    split_ifs <;> simp_all

/-- C3, on 2048 copy-bytes messages of 4096 bytes from `zeroNav`: the 1024th message redraws,
the 1023rd does not. -/
theorem redraw_throttle_witness :
    redrawAt (runProgress w64 zeroNav ((List.replicate 2048 4096).map Progress.copyBytes)).2 1024 ∧
    ¬ redrawAt (runProgress w64 zeroNav ((List.replicate 2048 4096).map Progress.copyBytes)).2 1023 :=
  ⟨(redraw_throttle.1 w64 zeroNav (List.replicate 2048 4096) 1024 rfl (by decide)
      (by rw [List.length_replicate]; decide)).2 (by decide),
   fun h => absurd ((redraw_throttle.1 w64 zeroNav (List.replicate 2048 4096) 1023 rfl (by decide)
      (by rw [List.length_replicate]; decide)).1 h) (by decide)⟩
/-! ## Invalidation phase -/

theorem processInvalidate_ran {σ : Type} (body : Bodies σ) (g : Invalidate) (s : σ) :
    (processInvalidate body g s).ran =
      (if g.sort then [Handler.sort] else [])
      ++ (if (afterSort body g s).gInvalidate.pos then [Handler.pos] else [])
      ++ (if (afterPos body g s).gInvalidate.dir then [Handler.dir] else [])
      ++ (if (afterDir body g s).gInvalidate.navSize then [Handler.navSize] else [])
      ++ (if (afterNavSize body g s).gInvalidate.mouse then [Handler.mouse] else [])
      ++ (if (afterMouse body g s).gInvalidate.period then [Handler.period] else []) := by
  have e1 : (afterSort body g s).ran = (if g.sort then [Handler.sort] else []) := by
    simp only [afterSort, sortBlock]; split_ifs <;> simp
  have e2 : (afterPos body g s).ran = (afterSort body g s).ran
      ++ (if (afterSort body g s).gInvalidate.pos then [Handler.pos] else []) := by
    simp only [afterPos, posBlock]; split_ifs <;> simp
  have e3 : (afterDir body g s).ran = (afterPos body g s).ran
      ++ (if (afterPos body g s).gInvalidate.dir then [Handler.dir] else []) := by
    simp only [afterDir, dirBlock]; split_ifs <;> simp
  have e4 : (afterNavSize body g s).ran = (afterDir body g s).ran
      ++ (if (afterDir body g s).gInvalidate.navSize then [Handler.navSize] else []) := by
    simp only [afterNavSize, navSizeBlock]; split_ifs <;> simp
  have e5 : (afterMouse body g s).ran = (afterNavSize body g s).ran
      ++ (if (afterNavSize body g s).gInvalidate.mouse then [Handler.mouse] else []) := by
    simp only [afterMouse, mouseBlock]; split_ifs <;> simp
  have e6 : (processInvalidate body g s).ran = (afterMouse body g s).ran
      ++ (if (afterMouse body g s).gInvalidate.period then [Handler.period] else []) := by
    simp only [processInvalidate, periodBlock]; split_ifs <;> simp
  rw [e6, e5, e4, e3, e2, e1]

theorem sortBlock_keeps {σ : Type} (body : Bodies σ)
    (hset : ∀ (h f : Handler) (x : Invalidate × σ), x.1.flag f = true → (body h x).1.flag f = true)
    (c : Cycle σ) (f : Handler) (hf : f ≠ Handler.sort) (h : c.gInvalidate.flag f = true) :
    (sortBlock body c).gInvalidate.flag f = true := by
  unfold sortBlock
  split_ifs
  · have := hset Handler.sort f (c.gInvalidate, c.state) h
    cases f <;> simp_all [Invalidate.flag]
  · exact h

theorem posBlock_keeps {σ : Type} (body : Bodies σ)
    (hset : ∀ (h f : Handler) (x : Invalidate × σ), x.1.flag f = true → (body h x).1.flag f = true)
    (c : Cycle σ) (f : Handler) (hf : f ≠ Handler.pos) (h : c.gInvalidate.flag f = true) :
    (posBlock body c).gInvalidate.flag f = true := by
  unfold posBlock
  split_ifs
  · have := hset Handler.pos f (c.gInvalidate, c.state) h
    cases f <;> simp_all [Invalidate.flag]
  · exact h

theorem dirBlock_keeps {σ : Type} (body : Bodies σ)
    (hset : ∀ (h f : Handler) (x : Invalidate × σ), x.1.flag f = true → (body h x).1.flag f = true)
    (c : Cycle σ) (f : Handler) (hf : f ≠ Handler.dir) (h : c.gInvalidate.flag f = true) :
    (dirBlock body c).gInvalidate.flag f = true := by
  unfold dirBlock
  split_ifs
  · have := hset Handler.dir f (c.gInvalidate, c.state) h
    cases f <;> simp_all [Invalidate.flag]
  · exact h

theorem navSizeBlock_keeps {σ : Type} (body : Bodies σ)
    (hset : ∀ (h f : Handler) (x : Invalidate × σ), x.1.flag f = true → (body h x).1.flag f = true)
    (c : Cycle σ) (f : Handler) (hf : f ≠ Handler.navSize) (h : c.gInvalidate.flag f = true) :
    (navSizeBlock body c).gInvalidate.flag f = true := by
  unfold navSizeBlock
  split_ifs
  · have := hset Handler.navSize f (c.gInvalidate, c.state) h
    cases f <;> simp_all [Invalidate.flag]
  · exact h

theorem mouseBlock_keeps {σ : Type} (body : Bodies σ)
    (hset : ∀ (h f : Handler) (x : Invalidate × σ), x.1.flag f = true → (body h x).1.flag f = true)
    (c : Cycle σ) (f : Handler) (hf : f ≠ Handler.mouse) (h : c.gInvalidate.flag f = true) :
    (mouseBlock body c).gInvalidate.flag f = true := by
  unfold mouseBlock
  split_ifs
  · have := hset Handler.mouse f (c.gInvalidate, c.state) h
    cases f <;> simp_all [Invalidate.flag]
  · exact h

theorem first_cycle_ran {σ : Type} (body : Bodies σ) (s : σ)
    (hset : ∀ (h f : Handler) (x : Invalidate × σ), x.1.flag f = true → (body h x).1.flag f = true) :
    (processInvalidate body init s).ran = handlerOrder := by
  have a1 : ∀ f, f ≠ Handler.sort → (afterSort body init s).gInvalidate.flag f = true :=
    fun f hf => sortBlock_keeps body hset _ f hf (by cases f <;> rfl)
  have a2 : ∀ f, f ≠ Handler.sort → f ≠ Handler.pos →
      (afterPos body init s).gInvalidate.flag f = true :=
    fun f h1 h2 => posBlock_keeps body hset _ f h2 (a1 f h1)
  have a3 : ∀ f, f ≠ Handler.sort → f ≠ Handler.pos → f ≠ Handler.dir →
      (afterDir body init s).gInvalidate.flag f = true :=
    fun f h1 h2 h3 => dirBlock_keeps body hset _ f h3 (a2 f h1 h2)
  have a4 : ∀ f, f ≠ Handler.sort → f ≠ Handler.pos → f ≠ Handler.dir → f ≠ Handler.navSize →
      (afterNavSize body init s).gInvalidate.flag f = true :=
    fun f h1 h2 h3 h4 => navSizeBlock_keeps body hset _ f h4 (a3 f h1 h2 h3)
  have a5 : ∀ f, f ≠ Handler.sort → f ≠ Handler.pos → f ≠ Handler.dir → f ≠ Handler.navSize →
      f ≠ Handler.mouse → (afterMouse body init s).gInvalidate.flag f = true :=
    fun f h1 h2 h3 h4 h5 => mouseBlock_keeps body hset _ f h5 (a4 f h1 h2 h3 h4)
  have b1 := a1 Handler.pos (by decide)
  have b2 := a2 Handler.dir (by decide) (by decide)
  have b3 := a3 Handler.navSize (by decide) (by decide) (by decide)
  have b4 := a4 Handler.mouse (by decide) (by decide) (by decide) (by decide)
  have b5 := a5 Handler.period (by decide) (by decide) (by decide) (by decide) (by decide)
  simp only [Invalidate.flag] at b1 b2 b3 b4 b5
  rw [processInvalidate_ran, b1, b2, b3, b4, b5]
  rfl

theorem phaseStep_blocks {σ : Type} (body : Bodies σ) (c : Cycle σ) :
    phaseStep body c Handler.sort = sortBlock body c ∧
    phaseStep body c Handler.pos = posBlock body c ∧
    phaseStep body c Handler.dir = dirBlock body c ∧
    phaseStep body c Handler.navSize = navSizeBlock body c ∧
    phaseStep body c Handler.mouse = mouseBlock body c ∧
    phaseStep body c Handler.period = periodBlock body c :=
  ⟨rfl, rfl, rfl, rfl, rfl, rfl⟩

theorem processInvalidate_eq_spec {σ : Type} (body : Bodies σ) (g : Invalidate) (s : σ) :
    processInvalidate body g s = phaseSpec body g s := by
  simp only [phaseSpec, handlerOrder, List.foldl_cons, List.foldl_nil, phaseStep_blocks]
  rfl

theorem phaseStep_runHandlers {σ : Type} (body : Bodies σ) (x : Invalidate × σ) (c : Cycle σ)
    (h : Handler) (hc : (c.gInvalidate, c.state) = runHandlers body c.ran x) :
    ((phaseStep body c h).gInvalidate, (phaseStep body c h).state)
      = runHandlers body (phaseStep body c h).ran x := by
  unfold phaseStep
  split_ifs
  · simp only [runHandlers, List.foldl_append, List.foldl_cons, List.foldl_nil]
    simp only [runHandlers] at hc
    rw [← hc]
  · exact hc

theorem foldl_phaseStep_runHandlers {σ : Type} (body : Bodies σ) (x : Invalidate × σ)
    (hs : List Handler) : ∀ c : Cycle σ,
    (c.gInvalidate, c.state) = runHandlers body c.ran x →
    ((hs.foldl (phaseStep body) c).gInvalidate, (hs.foldl (phaseStep body) c).state)
      = runHandlers body (hs.foldl (phaseStep body) c).ran x := by
  induction hs with
  | nil => intro c hc; exact hc
  | cons h hs ih =>
    intro c hc
    rw [List.foldl_cons]
    exact ih _ (phaseStep_runHandlers body x c h hc)

theorem raise_keeps (hs : List Handler) : ∀ (g : Invalidate) (f : Handler),
    g.flag f = true → (hs.foldl Invalidate.raise g).flag f = true := by
  induction hs with
  | nil => intro g f h; exact h
  | cons k hs ih =>
    intro g f h
    rw [List.foldl_cons]
    apply ih
    cases k <;> cases f <;> simp_all [Invalidate.raise, Invalidate.flag]

theorem processInvalidate_runHandlers {σ : Type} (body : Bodies σ) (g : Invalidate) (s : σ) :
    ((processInvalidate body g s).gInvalidate, (processInvalidate body g s).state)
      = runHandlers body (processInvalidate body g s).ran (g, s) := by
  rw [processInvalidate_eq_spec]
  exact foldl_phaseStep_runHandlers body (g, s) handlerOrder ⟨g, s, []⟩ rfl

/-- C10: the invalidation phase is the six handlers gone through once in the order sort,
position, directory, viewport size, mouse, period, each run exactly when its flag is true when
its block is reached, and its flag cleared right after: the handlers that run form a
sub-sequence of that order, none twice, the flags and the state afterwards are those of running
exactly these handlers in this order, and from the initial all-true flags all six run in that
order. -/
theorem invalidation_phase {σ : Type} (body : Bodies σ) (g : Invalidate) (s : σ) :
    processInvalidate body g s = phaseSpec body g s ∧
    List.Sublist (processInvalidate body g s).ran handlerOrder ∧
    (processInvalidate body g s).ran.Nodup ∧
    ((processInvalidate body g s).gInvalidate, (processInvalidate body g s).state)
      = runHandlers body (processInvalidate body g s).ran (g, s) ∧
    ((Handler.sort ∈ (processInvalidate body g s).ran ↔ g.sort = true) ∧
     (Handler.pos ∈ (processInvalidate body g s).ran ↔
        (afterSort body g s).gInvalidate.pos = true) ∧
     (Handler.dir ∈ (processInvalidate body g s).ran ↔
        (afterPos body g s).gInvalidate.dir = true) ∧
     (Handler.navSize ∈ (processInvalidate body g s).ran ↔
        (afterDir body g s).gInvalidate.navSize = true) ∧
     (Handler.mouse ∈ (processInvalidate body g s).ran ↔
        (afterNavSize body g s).gInvalidate.mouse = true) ∧
     (Handler.period ∈ (processInvalidate body g s).ran ↔
        (afterMouse body g s).gInvalidate.period = true)) ∧
    ((afterSort body g s).gInvalidate.sort = false ∧
     (afterPos body g s).gInvalidate.pos = false ∧
     (afterDir body g s).gInvalidate.dir = false ∧
     (afterNavSize body g s).gInvalidate.navSize = false ∧
     (afterMouse body g s).gInvalidate.mouse = false ∧
     (processInvalidate body g s).gInvalidate.period = false) ∧
    (∀ f : Handler → Invalidate × σ → σ × List Handler,
      (processInvalidate (specBodies f) init s).ran = handlerOrder ∧
      ((processInvalidate (specBodies f) init s).gInvalidate,
        (processInvalidate (specBodies f) init s).state)
        = runHandlers (specBodies f) handlerOrder (init, s)) := by
  refine ⟨processInvalidate_eq_spec body g s, ?_, ?_,
    processInvalidate_runHandlers body g s, ?_, ?_, ?_⟩
  · rw [processInvalidate_ran]
    split_ifs <;> decide
  · rw [processInvalidate_ran]
    split_ifs <;> decide
  · rw [processInvalidate_ran]
    refine ⟨?_, ?_, ?_, ?_, ?_, ?_⟩ <;> split_ifs <;> simp_all
  · refine ⟨?_, ?_, ?_, ?_, ?_, ?_⟩
    · simp only [afterSort, sortBlock]; split_ifs <;> simp_all
    · simp only [afterPos, posBlock]; split_ifs <;> simp_all
    · simp only [afterDir, dirBlock]; split_ifs <;> simp_all
    · simp only [afterNavSize, navSizeBlock]; split_ifs <;> simp_all
    · simp only [afterMouse, mouseBlock]; split_ifs <;> simp_all
    · simp only [processInvalidate, periodBlock]; split_ifs <;> simp_all
  · intro f
    have hr : (processInvalidate (specBodies f) init s).ran = handlerOrder :=
      first_cycle_ran (specBodies f) s (fun h k x hx => raise_keeps _ _ _ hx)
    refine ⟨hr, ?_⟩
    have := processInvalidate_runHandlers (specBodies f) init s
    rw [hr] at this
    exact this

/-- C10, on `sampleBodies`, whose state counts the handlers that have run: the first cycle runs
the six handlers in order and leaves the count at 6; from flags with only `sort` set the cycle
runs sort and then position, which the sort handler set, and leaves the count at 2. -/
theorem invalidation_phase_witness :
    (processInvalidate sampleBodies init 0).ran = handlerOrder ∧
    (processInvalidate sampleBodies init 0).state = 6 ∧
    processInvalidate sampleBodies ⟨true, false, false, false, false, false⟩ 0
      = ⟨⟨false, false, false, false, false, false⟩, 2, [Handler.sort, Handler.pos]⟩ :=
  ⟨((invalidation_phase sampleBodies init 0).2.2.2.2.2.2 sampleHandlers).1,
   (congrArg Prod.snd
      ((invalidation_phase sampleBodies init 0).2.2.2.2.2.2 sampleHandlers).2).trans (by decide),
   (invalidation_phase sampleBodies ⟨true, false, false, false, false, false⟩ 0).1.trans
     (by decide)⟩
/-! ## Directory updates -/

/-- C9 (counterexample): a snapshot that `checkDir` accepts and whose path is in no directory of
the (empty) navigation stack is stored in the directory cache and a redraw is issued. -/
theorem dir_not_in_stack_not_noop :
    sampleDir.path ∉ zeroNav.dirs.map dir.path ∧
    zeroNav.dirCache sampleDir.path = none ∧
    (dirCase acceptAll zeroNav ⟨none⟩ sampleDir).1.dirCache sampleDir.path = some sampleDir ∧
    Effect.draw ∈ (dirCase acceptAll zeroNav ⟨none⟩ sampleDir).2.2 := by
  decide

theorem replaceDirs_absent (nv : nav) (d : dir) (hd : d.path ∉ nv.dirs.map dir.path) :
    replaceDirs nv d = nv := by
  have hmap : nv.dirs.map (fun x => if x.path = d.path then d else x) = nv.dirs := by
    conv_rhs => rw [← List.map_id nv.dirs]
    apply List.map_congr_left
    intro x hx
    have : x.path ≠ d.path := fun e => hd (List.mem_map.2 ⟨x, hx, e⟩)
    simp [this]
  simp [replaceDirs, hmap]

/-- C9 (amended): for a snapshot that `checkDir` rejects the case does nothing of its own: the
navigation state afterwards is the one `checkDir` left (so cache, stack and cursor are unchanged
when `checkDir` changes nothing), the preview references are unchanged, and no redraw is
issued.  A snapshot that `checkDir` accepts always ends in a redraw, also when its path is in no
directory of the navigation stack: then no directory of the stack is replaced, and what
`position` receives is the navigation state `checkDir` left, with the snapshot stored in the
cache when the cache is enabled. -/
theorem dir_update (c : Collab) (nv : nav) (u : ui) (d : dir) :
    ((c.checkDir nv d).1 = false →
      (dirCase c nv u d).1 = (c.checkDir nv d).2.1 ∧ (dirCase c nv u d).2.1 = u ∧
      Effect.draw ∉ (dirCase c nv u d).2.2) ∧
    ((c.checkDir nv d).1 = false → (c.checkDir nv d).2.1 = nv →
      (dirCase c nv u d).1 = nv) ∧
    ((c.checkDir nv d).1 = true → Effect.draw ∈ (dirCase c nv u d).2.2) ∧
    ((c.checkDir nv d).1 = true → c.dircache = false →
      (c.checkDir nv d).2.2.path ∉ (c.checkDir nv d).2.1.dirs.map dir.path →
      (dirCase c nv u d).1 = c.position (c.checkDir nv d).2.1) ∧
    ((c.checkDir nv d).1 = true → c.dircache = true →
      (carryOver c (c.checkDir nv d).2.1 (c.checkDir nv d).2.2).path
        ∉ (c.checkDir nv d).2.1.dirs.map dir.path →
      (dirCase c nv u d).1 = c.position (cacheStore (c.checkDir nv d).2.1
        (carryOver c (c.checkDir nv d).2.1 (c.checkDir nv d).2.2))) := by
  refine ⟨?_, ?_, ?_, ?_, ?_⟩
  · intro h
    simp [dirCase, h]
  · intro h h2
    simp [dirCase, h, h2]
  · intro h
    simp [dirCase, h]
  · intro h hc hd
    simp [dirCase, h, hc, replaceDirs_absent _ _ hd]
  · intro h hc hd
    have := replaceDirs_absent (cacheStore (c.checkDir nv d).2.1
      (carryOver c (c.checkDir nv d).2.1 (c.checkDir nv d).2.2))
      (carryOver c (c.checkDir nv d).2.1 (c.checkDir nv d).2.2) hd
    simp [dirCase, h, hc, this]

/-- C9 (amended), on `sampleNav` and `dropDuplicates`: the snapshot equal to the cached one is
rejected, and stack, preview reference and screen stay as they are; a new snapshot of "/x" is
accepted, replaces the directory in the stack with the cursor carried over, becomes the preview
reference, and a redraw is issued. -/
theorem dir_update_witness :
    ((dirCase dropDuplicates sampleNav ⟨none⟩ ⟨ascii "/x", 3, false⟩).1.dirs = sampleNav.dirs ∧
     (dirCase dropDuplicates sampleNav ⟨none⟩ ⟨ascii "/x", 3, false⟩).2.1 = ⟨none⟩ ∧
     Effect.draw ∉ (dirCase dropDuplicates sampleNav ⟨none⟩ ⟨ascii "/x", 3, false⟩).2.2) ∧
    ((dirCase dropDuplicates sampleNav ⟨none⟩ ⟨ascii "/x", 0, true⟩).1.dirs
        = [⟨ascii "/", 0, false⟩, ⟨ascii "/x", 3, true⟩] ∧
     (dirCase dropDuplicates sampleNav ⟨none⟩ ⟨ascii "/x", 0, true⟩).2.1
        = ⟨some ⟨ascii "/x", 3, true⟩⟩ ∧
     Effect.draw ∈ (dirCase dropDuplicates sampleNav ⟨none⟩ ⟨ascii "/x", 0, true⟩).2.2) :=
  ⟨⟨congrArg nav.dirs
      ((dir_update dropDuplicates sampleNav ⟨none⟩ ⟨ascii "/x", 3, false⟩).2.1
        (by decide) rfl),
    ((dir_update dropDuplicates sampleNav ⟨none⟩ ⟨ascii "/x", 3, false⟩).1 (by decide)).2.1,
    ((dir_update dropDuplicates sampleNav ⟨none⟩ ⟨ascii "/x", 3, false⟩).1 (by decide)).2.2⟩,
   ⟨by decide, by decide,
    (dir_update dropDuplicates sampleNav ⟨none⟩ ⟨ascii "/x", 0, true⟩).2.2.1 (by decide)⟩⟩

/-! ## Scanner -/

theorem dropFinalEmpty_cons (a : GoString) (S : List GoString) (hS : S ≠ []) :
    dropFinalEmpty (a :: S) = a :: dropFinalEmpty S := by
  cases S with
  | nil => exact absurd rfl hS
  | cons b t => rfl

theorem mem_dropFinalEmpty_head (a : GoString) (S : List GoString) (ha : a ≠ []) :
    a ∈ dropFinalEmpty (a :: S) := by
  cases S with
  | nil => simp [dropFinalEmpty, ha]
  | cons b t => simp [dropFinalEmpty]

theorem scanTokens_lines (data : List UInt8) : ∀ acc : GoString,
    (∀ l ∈ dropFinalEmpty ((data.splitOnP (fun b => b == LF)).modifyHead (fun l => acc ++ l)),
      l.length < maxScanTokenSize) →
    scanTokens acc data =
      ((dropFinalEmpty ((data.splitOnP (fun b => b == LF)).modifyHead
        (fun l => acc ++ l))).map dropCR, false) := by
  induction data with
  | nil =>
    intro acc _
    by_cases hacc : acc = [] <;>
      simp [scanTokens, List.splitOnP_nil, List.modifyHead, dropFinalEmpty, hacc]
  | cons b rest ih =>
    intro acc h
    have hne : rest.splitOnP (fun b => b == LF) ≠ [] := List.splitOnP_ne_nil _ _
    rw [List.splitOnP_cons] at h ⊢
    by_cases hb : b = LF
    · have hb2 : (b == LF) = true := by simp [hb]
      simp only [hb2, if_true, List.modifyHead, List.append_nil] at h ⊢
      rw [dropFinalEmpty_cons _ _ hne] at h ⊢
      have hid : (rest.splitOnP (fun b => b == LF)).modifyHead (fun l => ([] : GoString) ++ l)
          = rest.splitOnP (fun b => b == LF) := by
        cases rest.splitOnP (fun b => b == LF) <;> simp [List.modifyHead]
      have ih2 := ih [] (by
        rw [hid]
        intro l hl
        exact h l (List.mem_cons_of_mem _ hl))
      rw [hid] at ih2
      simp only [scanTokens, hb, if_true, ih2, List.map_cons]
    · have hb2 : (b == LF) = false := by simp [hb]
      simp only [hb2, Bool.false_eq_true, if_false] at h ⊢
      have hmm : ((rest.splitOnP (fun b => b == LF)).modifyHead (List.cons b)).modifyHead
          (fun l => acc ++ l)
          = (rest.splitOnP (fun b => b == LF)).modifyHead (fun l => (acc ++ [b]) ++ l) := by
        cases rest.splitOnP (fun b => b == LF) <;> simp [List.modifyHead]
      rw [hmm] at h ⊢
      have hlen : ¬ maxScanTokenSize ≤ acc.length + 1 := by
        obtain ⟨x, t, hxt⟩ := List.exists_cons_of_ne_nil hne
        rw [hxt] at h
        simp only [List.modifyHead] at h
        have := h _ (mem_dropFinalEmpty_head ((acc ++ [b]) ++ x) t (by simp))
        simp only [List.length_append, List.length_singleton] at this
        omega
      simp only [scanTokens, hb, if_false, hlen]
      exact ih (acc ++ [b]) h

theorem newScanner_lines (data : List UInt8)
    (h : ∀ l ∈ rawLines data, l.length < maxScanTokenSize) :
    newScanner data = (fileLines data, false) := by
  have hid : (data.splitOnP (fun b => b == LF)).modifyHead (fun l => ([] : GoString) ++ l)
      = data.splitOnP (fun b => b == LF) := by
    cases data.splitOnP (fun b => b == LF) <;> simp [List.modifyHead]
  have := scanTokens_lines data [] (by rw [hid]; exact h)
  rw [hid] at this
  exact this

theorem scanTokens_line (l : GoString) : ∀ (acc : GoString) (rest : List UInt8),
    LF ∉ l → acc.length + l.length < maxScanTokenSize →
    scanTokens acc (l ++ LF :: rest) =
      (dropCR (acc ++ l) :: (scanTokens [] rest).1, (scanTokens [] rest).2) := by
  induction l with
  | nil =>
    intro acc rest _ _
    simp [scanTokens]
  | cons b l ih =>
    intro acc rest hl hlen
    have hb : b ≠ LF := fun e => hl (by simp [e])
    have hl2 : LF ∉ l := fun e => hl (List.mem_cons_of_mem _ e)
    simp only [List.length_cons] at hlen
    have h1 : ¬ maxScanTokenSize ≤ acc.length + 1 := by omega
    simp only [List.cons_append, scanTokens, hb, if_false, h1, List.append_eq]
    rw [ih (acc ++ [b]) rest hl2 (by simp; omega)]
    simp

theorem scanTokens_tooLong (pre : List UInt8) : ∀ (acc : GoString) (rest : List UInt8),
    LF ∉ pre → acc.length < maxScanTokenSize → maxScanTokenSize ≤ acc.length + pre.length →
    scanTokens acc (pre ++ rest) = ([], true) := by
  induction pre with
  | nil => intro acc rest _ h1 h2; simp at h2; omega
  | cons b pre ih =>
    intro acc rest hl h1 h2
    have hb : b ≠ LF := fun e => hl (by simp [e])
    have hl2 : LF ∉ pre := fun e => hl (List.mem_cons_of_mem _ e)
    simp only [List.length_cons] at h2
    simp only [List.cons_append, scanTokens, hb, if_false, List.append_eq]
    by_cases h3 : maxScanTokenSize ≤ acc.length + 1
    · simp [h3]
    · simp only [h3, if_false]
      exact ih (acc ++ [b]) rest hl2 (by simp; omega) (by simp; omega)

theorem dropCR_of_safe (s : GoString) (h : s.getLast? ≠ some CR) : dropCR s = s := by
  simp [dropCR, h]

theorem newScanner_unlines (ls : List GoString)
    (h : ∀ l ∈ ls, LF ∉ l ∧ l.length < maxScanTokenSize) :
    newScanner (unlines ls) = (ls.map dropCR, false) := by
  unfold newScanner
  induction ls with
  | nil => simp [unlines, scanTokens]
  | cons l ls ih =>
    have h1 := h l (List.mem_cons_self _ _)
    have ih2 := ih (fun x hx => h x (List.mem_cons_of_mem _ hx))
    have e : unlines (l :: ls) = l ++ LF :: unlines ls := by simp [unlines]
    rw [e, scanTokens_line l [] _ h1.1 (by simpa using h1.2), ih2]
    simp

theorem dropFinalEmpty_head (a : GoString) (S : List GoString) (ha : a ≠ []) :
    ∃ t, dropFinalEmpty (a :: S) = a :: t := by
  cases S with
  | nil => exact ⟨[], by simp [dropFinalEmpty, ha]⟩
  | cons b t => exact ⟨dropFinalEmpty (b :: t), rfl⟩

theorem scanTokens_all (data : List UInt8) : ∀ acc : GoString,
    acc.length < maxScanTokenSize →
    scanTokens acc data =
      (((dropFinalEmpty ((data.splitOnP (fun b => b == LF)).modifyHead
          (fun l => acc ++ l))).takeWhile (fun l => !overLong l)).map dropCR,
        (dropFinalEmpty ((data.splitOnP (fun b => b == LF)).modifyHead
          (fun l => acc ++ l))).any overLong) := by
  induction data with
  | nil =>
    intro acc hacc
    have hs : overLong acc = false := by simp [overLong]; omega
    by_cases h : acc = [] <;>
      simp [scanTokens, List.splitOnP_nil, List.modifyHead, dropFinalEmpty, h, hs,
        List.takeWhile_cons]
  | cons b rest ih =>
    intro acc hacc
    have hs : overLong acc = false := by simp [overLong]; omega
    have hne : rest.splitOnP (fun b => b == LF) ≠ [] := List.splitOnP_ne_nil _ _
    rw [List.splitOnP_cons]
    by_cases hb : b = LF
    · have hb2 : (b == LF) = true := by simp [hb]
      simp only [hb2, if_true, List.modifyHead, List.append_nil]
      rw [dropFinalEmpty_cons _ _ hne]
      have hid : (rest.splitOnP (fun b => b == LF)).modifyHead (fun l => ([] : GoString) ++ l)
          = rest.splitOnP (fun b => b == LF) := by
        cases rest.splitOnP (fun b => b == LF) <;> simp [List.modifyHead]
      have ih2 := ih [] (by decide)
      rw [hid] at ih2
      simp only [scanTokens, hb, if_true, ih2, List.takeWhile_cons, hs, Bool.not_false,
        List.map_cons, List.any_cons, Bool.false_or]
    · have hb2 : (b == LF) = false := by simp [hb]
      simp only [hb2, Bool.false_eq_true, if_false]
      have hmm : ((rest.splitOnP (fun b => b == LF)).modifyHead (List.cons b)).modifyHead
          (fun l => acc ++ l)
          = (rest.splitOnP (fun b => b == LF)).modifyHead (fun l => (acc ++ [b]) ++ l) := by
        cases rest.splitOnP (fun b => b == LF) <;> simp [List.modifyHead]
      rw [hmm]
      by_cases hlen : maxScanTokenSize ≤ acc.length + 1
      · obtain ⟨x, t, hxt⟩ := List.exists_cons_of_ne_nil hne
        rw [hxt]
        simp only [List.modifyHead]
        obtain ⟨t2, ht2⟩ := dropFinalEmpty_head ((acc ++ [b]) ++ x) t (by simp)
        rw [ht2]
        have hl : overLong ((acc ++ [b]) ++ x) = true := by
          simp only [overLong, List.length_append, List.length_singleton, decide_eq_true_eq]
          omega
        have hl2 : overLong (acc ++ b :: x) = true := by simpa using hl
        simp [scanTokens, hb, hlen, List.takeWhile_cons, hl2]
      · simp only [scanTokens, hb, if_false, hlen]
        exact ih (acc ++ [b]) (by simp; omega)

theorem newScanner_all (data : List UInt8) :
    newScanner data =
      (((rawLines data).takeWhile (fun l => !overLong l)).map dropCR,
        (rawLines data).any overLong) := by
  have hid : (data.splitOnP (fun b => b == LF)).modifyHead (fun l => ([] : GoString) ++ l)
      = data.splitOnP (fun b => b == LF) := by
    cases data.splitOnP (fun b => b == LF) <;> simp [List.modifyHead]
  have := scanTokens_all data [] (by decide)
  rw [hid] at this
  exact this

theorem rawLines_single (l : GoString) (hl : LF ∉ l) (hne : l ≠ []) : rawLines l = [l] := by
  unfold rawLines
  rw [List.splitOnP_eq_single (fun b => b == LF) l (fun x hx => by
    have : x ≠ LF := fun e => hl (e ▸ hx)
    simpa using this)]
  simp [dropFinalEmpty, hne]
/-! ## Selection file -/

theorem foldl_fprintln (list : List GoString) : ∀ out : List UInt8,
    list.foldl fprintln out = out ++ unlines list := by
  induction list with
  | nil => intro out; simp [unlines]
  | cons p ps ih =>
    intro out
    simp only [List.foldl_cons, ih, fprintln, unlines, List.map_cons, List.flatten_cons,
      List.append_assoc]

theorem saveFiles_file (list : List GoString) (cp : Bool) :
    saveFiles list cp
      = (some (unlines ((if cp then ascii "copy" else ascii "move") :: list)), none) := by
  cases cp <;> simp [saveFiles, foldl_fprintln, fprintln, unlines]

theorem loadLoop_takeWhile (ts : List GoString) :
    loadLoop ts false = (ts.takeWhile (fun t => t != []), false) := by
  induction ts with
  | nil => rfl
  | cons t ts ih =>
    by_cases ht : t = []
    · simp [loadLoop, ht]
    · simp [loadLoop, ht, ih, List.takeWhile_cons]

theorem takeWhile_nonempty (ts : List GoString) (h : ∀ t ∈ ts, t ≠ []) :
    ts.takeWhile (fun t => t != []) = ts := by
  rw [List.takeWhile_eq_self_iff]
  intro t ht
  simpa using h t ht

/-- C7 (counterexample): a path with a line feed in it does not come back: saving the one path
"/a", line feed, "b" and loading gives the two paths "/a" and "b". -/
theorem selection_newline_path_lost :
    loadFiles (saveFiles [ascii "/a\nb"] true).1 = ([ascii "/a", ascii "b"], true, none) := by
  decide

/-- C7 (amended): for every list of non-empty paths that hold no line feed, do not end in a
carriage return and are shorter than 65536 bytes, and every `cp`, `saveFiles` followed by
`loadFiles` returns the same list, the same `cp` and no error. -/
theorem selection_round_trip (list : List GoString) (cp : Bool)
    (h : ∀ p ∈ list, p ≠ [] ∧ LineSafe 0 p) :
    loadFiles (saveFiles list cp).1 = (list, cp, none) := by
  have hsafe : ∀ l ∈ (if cp then ascii "copy" else ascii "move") :: list,
      LF ∉ l ∧ l.length < maxScanTokenSize := by
    intro l hl
    rcases List.mem_cons.1 hl with rfl | hl
    · cases cp <;> decide
    · have := (h l hl).2
      exact ⟨this.1, by have := this.2.2; omega⟩
  have hcr : list.map dropCR = list := by
    conv_rhs => rw [← List.map_id list]
    apply List.map_congr_left
    intro p hp
    exact dropCR_of_safe p (h p hp).2.2.1
  rw [saveFiles_file]
  simp only [loadFiles]
  rw [newScanner_unlines _ hsafe]
  simp only [List.map_cons, hcr, List.headD_cons, List.tail_cons]
  rw [loadLoop_takeWhile, takeWhile_nonempty list (fun p hp => (h p hp).1)]
  cases cp
  · have e : dropCR (ascii "move") = ascii "move" := by decide
    have n : ascii "move" ≠ ascii "copy" := by decide
    simp [e, n]
  · have e : dropCR (ascii "copy") = ascii "copy" := by decide
    simp [e]

/-- C7 (amended), on the paths "/a" and "/b" saved for copying. -/
theorem selection_round_trip_witness :
    loadFiles (saveFiles [ascii "/a", ascii "/b"] true).1
      = ([ascii "/a", ascii "/b"], true, none) :=
  selection_round_trip [ascii "/a", ascii "/b"] true (by decide)

theorem rawLines_first (l : GoString) (rest : List UInt8) (hl : LF ∉ l) :
    rawLines (l ++ LF :: rest) = l :: rawLines rest := by
  unfold rawLines
  rw [List.splitOnP_first (fun b => b == LF) l (fun x hx => by
    have : x ≠ LF := fun e => hl (e ▸ hx)
    simpa using this) LF (by simp) rest]
  exact dropFinalEmpty_cons _ _ (List.splitOnP_ne_nil _ _)

/-- C8 (counterexample): the first line of `longSelection` is literally "copy", and `loadFiles`
returns an error, because the second line does not fit the scanner buffer; and the first line
of the file "copy", CR, LF, "/a", LF is "copy" with a carriage return, not literally "copy",
and `loadFiles` returns no error. -/
theorem loadFiles_long_line_error :
    ((rawLines longSelection).head? = some (ascii "copy") ∧
      loadFiles (some longSelection)
        = ([], true, some (Err.wrap "scanning file list: %s" Err.tooLong))) ∧
    ((rawLines (ascii "copy\r\n/a\n")).head? = some (ascii "copy\r") ∧
      loadFiles (some (ascii "copy\r\n/a\n")) = ([ascii "/a"], true, none)) := by
  refine ⟨⟨?_, ?_⟩, by decide, by decide⟩
  · unfold longSelection
    rw [rawLines_first _ _ (by decide)]
    rfl
  · have hs : newScanner longSelection = ([ascii "copy"], true) := by
      unfold newScanner longSelection
      rw [scanTokens_line _ _ _ (by decide) (by decide)]
      have := scanTokens_tooLong (List.replicate 65536 97) [] []
        (fun hm => absurd (List.eq_of_mem_replicate hm) (by decide)) (by decide)
        (by rw [List.length_replicate]; decide)
      rw [List.append_nil] at this
      rw [this]
      decide
    simp only [loadFiles, hs]
    decide

theorem loadLoop_spec (ls : List GoString) :
    loadLoop ((ls.takeWhile (fun l => !overLong l)).map dropCR) (ls.any overLong)
      = (selectionLines ls, stoppedAtLong ls) := by
  induction ls with
  | nil => rfl
  | cons l ls ih =>
    by_cases hl : overLong l = true
    · simp [loadLoop, selectionLines, stoppedAtLong, List.takeWhile_cons, List.dropWhile_cons, hl]
    · have hl2 : overLong l = false := by simpa using hl
      by_cases hb : dropCR l = []
      · simp [loadLoop, selectionLines, stoppedAtLong, List.takeWhile_cons,
          List.dropWhile_cons, hl2, hb]
      · simp only [selectionLines, stoppedAtLong] at ih
        simp [loadLoop, selectionLines, stoppedAtLong, List.takeWhile_cons,
          List.dropWhile_cons, hl2, hb, ih]

theorem loadFiles_core (raw : List GoString) (data : List UInt8)
    (hs : newScanner data
      = ((raw.takeWhile (fun l => !overLong l)).map dropCR, raw.any overLong)) :
    loadFiles (some data) =
      if firstText raw = ascii "copy" ∨ firstText raw = ascii "move" then
        (selectionLines raw.tail, decide (firstText raw = ascii "copy"),
          if stoppedAtLong raw.tail then
            some (Err.wrap "scanning file list: %s" Err.tooLong)
          else none)
      else ([], false, some (Err.msg "unexpected option to copy file(s): %s" (firstText raw))) := by
  have hc0 : ascii "copy" ≠ [] := by decide
  have hm0 : ascii "move" ≠ [] := by decide
  simp only [loadFiles, hs]
  cases raw with
  | nil => simp [firstText, hc0, hm0]
  | cons l ls =>
    by_cases hl : overLong l = true
    · simp [firstText, List.takeWhile_cons, hl, hc0, hm0]
    · have hl2 : overLong l = false := by simpa using hl
      simp only [firstText, List.takeWhile_cons, hl2, Bool.not_false, if_true, List.map_cons,
        List.headD_cons, List.tail_cons, List.any_cons, Bool.false_or, loadLoop_spec,
        Bool.false_eq_true, if_false]
      split_ifs <;> rfl

theorem loadFiles_eq (data : List UInt8) :
    loadFiles (some data) =
      if firstLine data = ascii "copy" ∨ firstLine data = ascii "move" then
        (selectionLines (laterLines data), decide (firstLine data = ascii "copy"),
          if stoppedAtLong (laterLines data) then
            some (Err.wrap "scanning file list: %s" Err.tooLong)
          else none)
      else ([], false, some (Err.msg "unexpected option to copy file(s): %s" (firstLine data))) :=
  loadFiles_core (rawLines data) data (newScanner_all data)

/-- C8 (amended): for every state of the selection file, `loadFiles` returns `(nil, false, nil)`
when the file is absent; it returns an error exactly when the file is present and either its
first line, without the carriage return of a CR LF line end, is not "copy" or "move" (as when
the file is empty or the first line is over-long), or an over-long line comes before the first
blank line; a first line "copy" (or "move") gives `cp = true` (or `false`) and the following
lines, without their carriage returns, up to and excluding the first blank line, the first
over-long line or the end of the file. -/
theorem loadFiles_spec (gFiles : Option (List UInt8)) :
    (gFiles = none → loadFiles gFiles = ([], false, none)) ∧
    ((loadFiles gFiles).2.2 ≠ none ↔
      ∃ data, gFiles = some data ∧
        ((firstLine data ≠ ascii "copy" ∧ firstLine data ≠ ascii "move") ∨
          stoppedAtLong (laterLines data) = true)) ∧
    (∀ data, gFiles = some data → firstLine data = ascii "copy" →
      loadFiles gFiles = (selectionLines (laterLines data), true,
        if stoppedAtLong (laterLines data) then
          some (Err.wrap "scanning file list: %s" Err.tooLong)
        else none)) ∧
    (∀ data, gFiles = some data → firstLine data = ascii "move" →
      loadFiles gFiles = (selectionLines (laterLines data), false,
        if stoppedAtLong (laterLines data) then
          some (Err.wrap "scanning file list: %s" Err.tooLong)
        else none)) ∧
    (∀ data, gFiles = some data →
      firstLine data ≠ ascii "copy" → firstLine data ≠ ascii "move" →
      loadFiles gFiles
        = ([], false, some (Err.msg "unexpected option to copy file(s): %s" (firstLine data)))) := by
  have hne : ascii "move" ≠ ascii "copy" := by decide
  cases gFiles with
  | none => simp [loadFiles]
  | some data =>
    refine ⟨by simp, ?_, ?_, ?_, ?_⟩
    · rw [show (∃ d, some data = some d ∧
          ((firstLine d ≠ ascii "copy" ∧ firstLine d ≠ ascii "move") ∨
            stoppedAtLong (laterLines d) = true)) ↔
          ((firstLine data ≠ ascii "copy" ∧ firstLine data ≠ ascii "move") ∨
            stoppedAtLong (laterLines data) = true) from by simp]
      rw [loadFiles_eq]
      by_cases h1 : firstLine data = ascii "copy"
      · cases hs : stoppedAtLong (laterLines data) <;> simp [h1, hs]
      · by_cases h2 : firstLine data = ascii "move"
        · cases hs : stoppedAtLong (laterLines data) <;> simp [h2, hs, hne]
        · simp [h1, h2]
    · intro d hd h1
      cases hd
      rw [loadFiles_eq]
      simp [h1]
    · intro d hd h2
      cases hd
      rw [loadFiles_eq]
      simp [h2, hne]
    · intro d hd h1 h2
      cases hd
      rw [loadFiles_eq]
      simp [h1, h2]

theorem rawLines_longAfterBlank :
    rawLines longAfterBlank = [ascii "copy", ascii "/a", [], List.replicate 65536 97] := by
  have hrep : LF ∉ List.replicate 65536 (97 : UInt8) :=
    fun hm => absurd (List.eq_of_mem_replicate hm) (by decide)
  unfold longAfterBlank
  rw [rawLines_first _ _ (by decide), rawLines_first _ _ (by decide),
    rawLines_first _ _ (by decide), rawLines_single _ hrep (by
      intro h
      have := congrArg List.length h
      rw [List.length_replicate] at this
      exact absurd this (by decide))]

theorem rawLines_longFirstLine :
    rawLines longFirstLine = [List.replicate 65536 97, ascii "/a"] := by
  have hrep : LF ∉ List.replicate 65536 (97 : UInt8) :=
    fun hm => absurd (List.eq_of_mem_replicate hm) (by decide)
  unfold longFirstLine
  rw [rawLines_first _ _ hrep, rawLines_first _ _ (by decide)]
  rfl

/-- C8 (amended), on an absent file; on a file with the lines "copy", "/a", a blank line and
"/b"; on `longAfterBlank`, where the over-long line comes after the blank line and is never
read; and on `longFirstLine`, whose first line is unreadable. -/
theorem loadFiles_spec_witness :
    loadFiles none = ([], false, none) ∧
    loadFiles (some (ascii "copy\n/a\n\n/b\n")) = ([ascii "/a"], true, none) ∧
    loadFiles (some longAfterBlank) = ([ascii "/a"], true, none) ∧
    loadFiles (some longFirstLine)
      = ([], false, some (Err.msg "unexpected option to copy file(s): %s" [])) := by
  have hlong : overLong (List.replicate 65536 (97 : UInt8)) = true := by
    unfold overLong
    rw [List.length_replicate]
    decide
  refine ⟨(loadFiles_spec none).1 rfl,
    ((loadFiles_spec (some (ascii "copy\n/a\n\n/b\n"))).2.2.1 _ rfl (by decide)).trans
      (by decide),
    ((loadFiles_spec (some longAfterBlank)).2.2.1 _ rfl ?_).trans ?_,
    ((loadFiles_spec (some longFirstLine)).2.2.2.2 _ rfl ?_ ?_).trans ?_⟩
  · simp only [firstLine, rawLines_longAfterBlank, firstText]
    decide
  · rw [laterLines, rawLines_longAfterBlank]
    decide
  · simp only [firstLine, rawLines_longFirstLine, firstText, hlong, if_true]
    decide
  · simp only [firstLine, rawLines_longFirstLine, firstText, hlong, if_true]
    decide
  · simp only [firstLine, rawLines_longFirstLine, firstText, hlong, if_true]
/-! ## History: loading -/

theorem dropWhile_eq_nil_of_not_mem (line : GoString) (h : SP ∉ line) :
    line.dropWhile (fun b => b != SP) = [] := by
  rw [List.dropWhile_eq_nil_iff]
  intro x hx
  have : x ≠ SP := fun e => h (e ▸ hx)
  simpa using this

theorem mem_of_dropWhile_cons (line : GoString) (x : UInt8) (t : GoString)
    (h : line.dropWhile (fun b => b != SP) = x :: t) : SP ∈ line := by
  by_contra hn
  rw [dropWhile_eq_nil_of_not_mem line hn] at h
  cases h

theorem readHistoryLine_eq (hist : List cmdItem) (line : GoString) :
    readHistoryLine hist line = hist ++ (lineEntry line).toList := by
  unfold readHistoryLine splitN2 lineEntry
  rw [List.span_eq_take_drop]
  cases hd : line.dropWhile (fun b => b != SP) with
  | nil =>
    have hsp : SP ∉ line := by
      intro hm
      have := (List.dropWhile_eq_nil_iff.1 hd) SP hm
      simp at this
    simp only [List.headD_cons, List.length_singleton]
    split_ifs <;> simp_all
  | cons x t =>
    have hsp : SP ∈ line := mem_of_dropWhile_cons line x t hd
    simp only [List.headD_cons, List.length_cons, List.length_nil, List.tail_cons]
    by_cases hp : line.takeWhile (fun b => b != SP) ∈ historyPrefixes
    · have hp2 := hp
      simp only [historyPrefixes, List.mem_cons, List.mem_nil_iff, or_false] at hp2
      have hc : ¬ (line.takeWhile (fun b => b != SP) ≠ ascii ":" ∧
          line.takeWhile (fun b => b != SP) ≠ ascii "$" ∧
          line.takeWhile (fun b => b != SP) ≠ ascii "%" ∧
          line.takeWhile (fun b => b != SP) ≠ ascii "!" ∧
          line.takeWhile (fun b => b != SP) ≠ ascii "&") := by tauto
      simp [hc, hp, hsp]
    · have hp2 := hp
      simp only [historyPrefixes, List.mem_cons, List.mem_nil_iff, or_false] at hp2
      have hc : (line.takeWhile (fun b => b != SP) ≠ ascii ":" ∧
          line.takeWhile (fun b => b != SP) ≠ ascii "$" ∧
          line.takeWhile (fun b => b != SP) ≠ ascii "%" ∧
          line.takeWhile (fun b => b != SP) ≠ ascii "!" ∧
          line.takeWhile (fun b => b != SP) ≠ ascii "&") := by tauto
      simp [hc, hp]

theorem foldl_readHistoryLine (lines : List GoString) : ∀ hist : List cmdItem,
    lines.foldl readHistoryLine hist = hist ++ lines.filterMap lineEntry := by
  induction lines with
  | nil => intro hist; simp
  | cons l ls ih =>
    intro hist
    rw [List.foldl_cons, ih, readHistoryLine_eq]
    cases h : lineEntry l <;> simp [List.filterMap_cons, h]

theorem lineEntry_form (p v : GoString) (hp : p ∈ historyPrefixes) :
    lineEntry (p ++ SP :: v) = some ⟨p, v⟩ := by
  have hsp : ∀ x ∈ p, (x != SP) = true := by
    simp only [historyPrefixes, List.mem_cons, List.mem_nil_iff, or_false] at hp
    rcases hp with rfl | rfl | rfl | rfl | rfl <;> decide
  have h1 : (p ++ SP :: v).takeWhile (fun b => b != SP) = p := by
    rw [List.takeWhile_append_of_pos hsp]
    simp
  have h2 : (p ++ SP :: v).dropWhile (fun b => b != SP) = SP :: v := by
    rw [List.dropWhile_append_of_pos hsp]
    simp
  simp [lineEntry, h1, h2, hp]

theorem lineEntry_some (line : GoString) (e : cmdItem) (h : lineEntry line = some e) :
    e.pfx ∈ historyPrefixes ∧ line = e.pfx ++ SP :: e.value := by
  unfold lineEntry at h
  split_ifs at h with hc
  cases h
  refine ⟨hc.2, ?_⟩
  have hta := List.takeWhile_append_dropWhile (fun b => b != SP) line
  cases hd : line.dropWhile (fun b => b != SP) with
  | nil =>
    have := (List.dropWhile_eq_nil_iff.1 hd) SP hc.1
    simp at this
  | cons x t =>
    have hx : x = SP := by
      have := List.head_dropWhile_not (fun b => b != SP) line (by rw [hd]; simp)
      simp only [hd, List.head_cons] at this
      simpa using this
    rw [hd, hx] at hta
    simp only [List.tail_cons]
    exact hta.symm

theorem readHistory_some (a : app) (data : List UInt8) :
    readHistory a (some data) =
      ({ cmdHistory := a.cmdHistory ++ (newScanner data).1.filterMap lineEntry,
         cmdHistoryBeg := (a.cmdHistory ++ (newScanner data).1.filterMap lineEntry).length,
         cmdHistoryInd := a.cmdHistoryInd },
       if (newScanner data).2 then some (Err.wrap "reading history file: %s" Err.tooLong)
       else none) := by
  simp only [readHistory, foldl_readHistoryLine]
  split_ifs <;> rfl

theorem foldl_writeCmd (es : List cmdItem) : ∀ f : List UInt8,
    es.foldl writeCmd f = f ++ historyText es := by
  induction es with
  | nil => intro f; simp [historyText]
  | cons e es ih =>
    intro f
    simp only [List.foldl_cons, ih, writeCmd, historyText, List.map_cons, List.flatten_cons,
      List.append_assoc]

theorem readHistory_err (a : app) (g : Option (List UInt8)) :
    (readHistory a g).2 = (readHistory freshApp g).2 := by
  cases g with
  | none => rfl
  | some data => rw [readHistory_some, readHistory_some]

theorem readHistory_cmdHistory (a : app) (g : Option (List UInt8)) (h : a.cmdHistory = []) :
    (readHistory a g).1.cmdHistory = diskEntries g := by
  unfold diskEntries
  cases g with
  | none => simp [readHistory, h, freshApp]
  | some data => rw [readHistory_some, readHistory_some, h]; rfl

theorem lastEntries_length (n : Nat) (log : List cmdItem) : (lastEntries n log).length ≤ n := by
  simp only [lastEntries, List.length_drop]
  omega

theorem writeHistory_eq (a : app) (g : Option (List UInt8)) (hne : a.cmdHistory ≠ [])
    (hbeg : a.cmdHistoryBeg ≤ a.cmdHistory.length) :
    writeHistory a g = some (
      match (readHistory { a with cmdHistory := [] } g).2 with
      | some err =>
        ⟨(readHistory { a with cmdHistory := [] } g).1, g,
          some (Err.wrap "reading history file: %s" err)⟩
      | none =>
        ⟨{ (readHistory { a with cmdHistory := [] } g).1 with
            cmdHistory := lastEntries 1000 (diskEntries g ++ a.cmdHistory.drop a.cmdHistoryBeg) },
          some (historyText
            (lastEntries 1000 (diskEntries g ++ a.cmdHistory.drop a.cmdHistoryBeg))),
          none⟩) := by
  have h1 : ¬ a.cmdHistory.length = 0 := by
    intro h; exact hne (List.length_eq_zero.1 h)
  have h2 : ¬ a.cmdHistory.length < a.cmdHistoryBeg := by omega
  have hc := readHistory_cmdHistory { a with cmdHistory := [] } g rfl
  unfold writeHistory
  simp only [h1, h2, if_false]
  rcases hr : readHistory { a with cmdHistory := [] } g with ⟨a2, e⟩
  rw [hr] at hc
  simp only at hc
  cases e with
  | some err => rfl
  | none =>
    simp only [foldl_writeCmd, List.nil_append, hc, lastEntries]
    split_ifs with hlen
    · simp
    · have : (diskEntries g ++ List.drop a.cmdHistoryBeg a.cmdHistory).length - 1000 = 0 := by
        omega
      rw [this, List.drop_zero]

/-- C5: for an app with non-empty history and `cmdHistoryBeg ≤ len(cmdHistory)`, and every
history file, `writeHistory` returns, and when it returns no error the file holds exactly the
lines "<prefix> <value>" of the last 1000 entries of the entries `readHistory` parses from the
file followed by `cmdHistory[cmdHistoryBeg:]`, so never more than 1000 entries. -/
theorem writeHistory_spec (a : app) (g : Option (List UInt8)) (hne : a.cmdHistory ≠ [])
    (hbeg : a.cmdHistoryBeg ≤ a.cmdHistory.length) :
    ∃ r, writeHistory a g = some r ∧
      (r.err = none ↔ (readHistory freshApp g).2 = none) ∧
      (r.err = none →
        r.file = some (historyText
          (lastEntries 1000 (diskEntries g ++ a.cmdHistory.drop a.cmdHistoryBeg))) ∧
        r.app.cmdHistory
          = lastEntries 1000 (diskEntries g ++ a.cmdHistory.drop a.cmdHistoryBeg) ∧
        (lastEntries 1000 (diskEntries g ++ a.cmdHistory.drop a.cmdHistoryBeg)).length
          ≤ 1000) := by
  refine ⟨_, writeHistory_eq a g hne hbeg, ?_, ?_⟩
  · rw [← readHistory_err { a with cmdHistory := [] } g]
    cases (readHistory { a with cmdHistory := [] } g).2 <;> simp
  · cases he : (readHistory { a with cmdHistory := [] } g).2 with
    | some err => simp
    | none => simp [lastEntries_length]

/-- C5, on `sampleSession` and a file that another instance has extended: the file afterwards
holds the entries of the file followed by the entry of this session. -/
theorem writeHistory_spec_witness :
    (writeHistory sampleSession (some (ascii ": old\n$ ls\n"))).map WriteResult.file
      = some (some (ascii ": old\n$ ls\n! rm x\n")) := by
  obtain ⟨r, h1, h2, h3⟩ :=
    writeHistory_spec sampleSession (some (ascii ": old\n$ ls\n")) (by decide) (by decide)
  rw [h1, Option.map_some', (h3 (h2.2 (by decide))).1]
  decide

theorem historyText_unlines (es : List cmdItem) :
    historyText es = unlines (es.map entryLine) := by
  simp [historyText, unlines, entryLine, Function.comp_def]

theorem entryLine_safe (e : cmdItem) (h : EntrySafe e) :
    LF ∉ entryLine e ∧ (entryLine e).length < maxScanTokenSize ∧
      dropCR (entryLine e) = entryLine e := by
  obtain ⟨hp, hlf, hcr, hlen⟩ := h
  have hp1 : e.pfx.length = 1 ∧ LF ∉ e.pfx := by
    simp only [historyPrefixes, List.mem_cons, List.mem_nil_iff, or_false] at hp
    rcases hp with h | h | h | h | h <;> rw [h] <;> decide
  refine ⟨?_, ?_, ?_⟩
  · simp only [entryLine, List.mem_append, List.mem_cons, not_or]
    exact ⟨hp1.2, by decide, hlf⟩
  · simp only [entryLine, List.length_append, List.length_cons]
    omega
  · apply dropCR_of_safe
    simp only [entryLine, List.getLast?_append, List.getLast?_cons]
    cases hv : e.value.getLast? with
    | none => simp; decide
    | some x =>
      rw [hv] at hcr
      simpa using hcr

theorem readHistory_historyText (a : app) (es : List cmdItem) (h : ∀ e ∈ es, EntrySafe e) :
    readHistory a (some (historyText es)) =
      ({ cmdHistory := a.cmdHistory ++ es, cmdHistoryBeg := (a.cmdHistory ++ es).length,
         cmdHistoryInd := a.cmdHistoryInd }, none) := by
  have hs : newScanner (historyText es) = (es.map entryLine, false) := by
    rw [historyText_unlines, newScanner_unlines]
    · congr 1
      rw [List.map_map]
      apply List.map_congr_left
      intro e he
      exact (entryLine_safe e (h e he)).2.2
    · intro l hl
      obtain ⟨e, he, rfl⟩ := List.mem_map.1 hl
      exact ⟨(entryLine_safe e (h e he)).1, (entryLine_safe e (h e he)).2.1⟩
  have hf : (es.map entryLine).filterMap lineEntry = es := by
    rw [List.filterMap_map]
    conv_rhs => rw [← List.filterMap_some es]
    apply List.filterMap_congr
    intro e he
    exact lineEntry_form e.pfx e.value (h e he).1
  rw [readHistory_some, hs]
  simp only [hf]
  rfl

theorem foldl_record (news : List cmdItem) : ∀ a : app,
    news.foldl record a = { a with cmdHistory := a.cmdHistory ++ recorded news } := by
  induction news with
  | nil => intro a; simp [recorded]
  | cons e es ih =>
    intro a
    rw [List.foldl_cons, ih]
    by_cases he : e.pfx ∈ historyPrefixes
    · simp [record, recorded, he, List.filter_cons]
    · simp [record, recorded, he, List.filter_cons]

theorem diskEntries_recognised (g : Option (List UInt8)) (e : cmdItem)
    (he : e ∈ diskEntries g) : e.pfx ∈ historyPrefixes := by
  unfold diskEntries at he
  cases g with
  | none => simp [readHistory, freshApp] at he
  | some data =>
    rw [readHistory_some] at he
    simp only [freshApp, List.nil_append, List.mem_filterMap] at he
    obtain ⟨line, _, hl⟩ := he
    exact (lineEntry_some line e hl).1

theorem readHistory_beg (g : Option (List UInt8)) :
    (readHistory freshApp g).1.cmdHistoryBeg = (diskEntries g).length := by
  unfold diskEntries
  cases g with
  | none => rfl
  | some data => rw [readHistory_some]

theorem readHistory_beg_nil (a : app) (g : Option (List UInt8))
    (hb : a.cmdHistoryBeg = (diskEntries g).length) :
    (readHistory { a with cmdHistory := [] } g).1.cmdHistoryBeg = (diskEntries g).length := by
  cases g with
  | none => simpa [readHistory] using hb
  | some data =>
    unfold diskEntries
    rw [readHistory_some, readHistory_some]
    rfl

theorem readHistory_ind (a : app) (g : Option (List UInt8)) :
    (readHistory a g).1.cmdHistoryInd = a.cmdHistoryInd := by
  cases g with
  | none => rfl
  | some data => rw [readHistory_some]

theorem lastEntries_of_le (n : Nat) (log : List cmdItem) (h : log.length ≤ n) :
    lastEntries n log = log := by
  unfold lastEntries
  rw [show log.length - n = 0 from by omega, List.drop_zero]

theorem lastEntries_ne_nil (n : Nat) (log : List cmdItem) (hn : 0 < n) (h : log ≠ []) :
    lastEntries n log ≠ [] := by
  intro he
  have hl := congrArg List.length he
  have hpos : 0 < log.length := List.length_pos.2 h
  simp only [lastEntries, List.length_drop, List.length_nil] at hl
  omega

theorem lastEntries_length_eq (n : Nat) (log : List cmdItem) :
    (lastEntries n log).length = min log.length n := by
  simp only [lastEntries, List.length_drop]
  omega

theorem writeHistory_panic (a : app) (g : Option (List UInt8)) (hne : a.cmdHistory ≠ [])
    (hlt : a.cmdHistory.length < a.cmdHistoryBeg) : writeHistory a g = none := by
  have h1 : ¬ a.cmdHistory.length = 0 := by
    intro h; exact hne (List.length_eq_zero.1 h)
  unfold writeHistory
  simp only [h1, hlt, if_false, if_true]

theorem writeHistory_first (g : Option (List UInt8)) (news : List cmdItem)
    (hread : (readHistory freshApp g).2 = none)
    (hne : diskEntries g ++ news ≠ []) :
    writeHistory ⟨diskEntries g ++ news, (diskEntries g).length, freshApp.cmdHistoryInd⟩ g
      = some ⟨⟨lastEntries 1000 (diskEntries g ++ news), (diskEntries g).length,
          freshApp.cmdHistoryInd⟩,
        some (historyText (lastEntries 1000 (diskEntries g ++ news))), none⟩ := by
  have hdrop : (diskEntries g ++ news).drop (diskEntries g).length = news :=
    List.drop_left' rfl
  have h1 := writeHistory_eq
    ⟨diskEntries g ++ news, (diskEntries g).length, freshApp.cmdHistoryInd⟩ g hne (by simp)
  have he1 := readHistory_err
    { (⟨diskEntries g ++ news, (diskEntries g).length, freshApp.cmdHistoryInd⟩ : app) with
      cmdHistory := [] } g
  rw [hread] at he1
  simp only at he1 h1
  rw [he1] at h1
  simp only [hdrop] at h1
  have hb1 := readHistory_beg_nil
    ⟨diskEntries g ++ news, (diskEntries g).length, freshApp.cmdHistoryInd⟩ g rfl
  simp only at hb1
  rw [hb1] at h1
  simp only [readHistory_ind] at h1
  exact h1

theorem writeHistory_failed (g : Option (List UInt8)) (a : app) (hne : a.cmdHistory ≠ [])
    (hbeg : a.cmdHistoryBeg ≤ a.cmdHistory.length)
    (hread : (readHistory freshApp g).2 ≠ none) :
    ∃ r, writeHistory a g = some r ∧ r.err ≠ none ∧ r.file = g ∧
      r.app.cmdHistory = diskEntries g ∧ r.app.cmdHistoryBeg = (diskEntries g).length := by
  have h1 := writeHistory_eq a g hne hbeg
  have he1 := readHistory_err { a with cmdHistory := [] } g
  have hc := readHistory_cmdHistory { a with cmdHistory := [] } g rfl
  cases g with
  | none => exact absurd rfl hread
  | some data =>
    cases hr : (readHistory freshApp (some data)).2 with
    | none => exact absurd hr hread
    | some err =>
      rw [hr] at he1
      rw [he1] at h1
      refine ⟨_, h1, by simp, rfl, hc, ?_⟩
      simp only
      rw [readHistory_some]
      simp only [List.nil_append]
      unfold diskEntries
      rw [readHistory_some]
      rfl

end Lf
